import Mathlib

/-! TinyURL: identifier generation and short-code encoding

A shallow embedding of the identifier generator, the two Feistel permutations,
the Base62 codecs, the secure-token pipeline and the stateless resolution of
the `services` package, together with the properties established about them.

Conventions of the embedding

* `uint32` / `uint64` / `byte` values are natural numbers; every operation that
  can overflow in Go is followed by an explicit reduction modulo `2^32`,
  `2^64` or `256`.
* `int64` values are integers; `wrapInt64` performs the two's-complement wrap.
* a Go `string` and a Go `[]byte` are both lists of byte values.
* a function that can hit a run-time panic returns `Option` (`none` is the
  panic); a function that returns a Go `error` returns `Except String`.
* the package-level configuration variables of `initializers` are gathered in
  the record `CryptoConfig`, passed explicitly.
* library primitives (zlib, AES-GCM, HMAC-SHA256, UTF-8 handling) and the
  tenant directory are parameters, gathered in `CryptoPrimitives` and
  `Collaborators`.
-/

namespace TinyURL

deriving instance DecidableEq for Except

/-! ## Machine integers -/

/-- Two's-complement wrap of an integer into the `int64` range. -/
def wrapInt64 (x : Int) : Int := (x + 2 ^ 63) % 2 ^ 64 - 2 ^ 63

/-- The Go conversion `uint64(x)` of an `int64` value: its 64-bit pattern. -/
def toUint64 (x : Int) : Nat := (x % 2 ^ 64).toNat

/-- The Go conversion `int64(x)` of a `uint64` value. -/
def toInt64 (x : Nat) : Int := wrapInt64 (x : Int)

/-! ## Configuration (`initializers/crypto_config.go`) -/

/-- The package-level variables set by `LoadCryptoConfig`. -/
structure CryptoConfig where
  FeistelKeys : List Nat
  ActiveFeistelVersion : Int
  FeistelRounds : Int
  MasterFeistelSecret : List Nat
  AESSecret : List Nat
  HMACSecret : List Nat
deriving Repr, DecidableEq

/-- The checks of `LoadCryptoConfig` that end in `log.Fatal` when they fail:
a configuration for which start-up succeeds satisfies all of them. -/
def CryptoConfig.Loaded (c : CryptoConfig) : Prop :=
  c.FeistelKeys ≠ [] ∧ (∀ k ∈ c.FeistelKeys, k < 2 ^ 32) ∧
  0 ≤ c.ActiveFeistelVersion ∧ c.ActiveFeistelVersion < c.FeistelKeys.length ∧
  1 ≤ c.FeistelRounds ∧ c.FeistelRounds ≤ 10 ∧
  c.AESSecret.length = 32 ∧ c.HMACSecret ≠ []

/-! ## Fixed-block Feistel permutation (`services/id_generator.go`) -/

/-- One Feistel round on two 32-bit halves:
`mixed := right + key; mixed = rotl(mixed, 7); mixed *= 0x9e3779b9;
return right, left ^ mixed`. -/
def feistelRound (left right key : Nat) : Nat × Nat :=
  let mixed := (right + key) % 2 ^ 32
  let mixed := ((mixed <<< 7) % 2 ^ 32) ||| (mixed >>> (32 - 7))
  let mixed := (mixed * 0x9e3779b9) % 2 ^ 32
  (right, left ^^^ mixed)

/-- The forward pass: split the id, run `rounds` rounds with round key
`key + uint32(i)`, recombine. A non-positive `rounds` runs no round. -/
def ObfuscateIDWithKey (id key : Nat) (rounds : Int) : Nat :=
  let left := (id >>> 32) % 2 ^ 32
  let right := (id &&& 0xffffffff) % 2 ^ 32
  let p := (List.range rounds.toNat).foldl
    (fun (p : Nat × Nat) i => feistelRound p.1 p.2 ((key + i % 2 ^ 32) % 2 ^ 32)) (left, right)
  ((p.1 <<< 32) % 2 ^ 64) ||| p.2

/-- The round that `DecodeID` applies:
`newRight := left ^ ((right + key) * 0x9e3779b9); newLeft := right`. -/
def feistelReverse (left right key : Nat) : Nat × Nat :=
  let newRight := left ^^^ ((((right + key) % 2 ^ 32) * 0x9e3779b9) % 2 ^ 32)
  let newLeft := right
  (newLeft, newRight)

/-- The body of `DecodeID` after the key has been chosen: split the 64-bit
pattern `num`, apply `feistelReverse` with `key + uint32(i)` for
`i = rounds-1, ..., 0`, and recombine the halves (as a 64-bit pattern). -/
def decodeIDLoop (num key : Nat) (rounds : Int) : Nat :=
  let left := (num >>> 32) % 2 ^ 32
  let right := (num &&& 0xffffffff) % 2 ^ 32
  let p := (List.range rounds.toNat).reverse.foldl
    (fun (p : Nat × Nat) i => feistelReverse p.1 p.2 ((key + i % 2 ^ 32) % 2 ^ 32)) (left, right)
  ((p.1 <<< 32) % 2 ^ 64) ||| p.2

/-! ## Tenant key derivation -/

/-- The expression `initializers.FeistelKeys[initializers.ActiveFeistelVersion]`;
`none` is the index-out-of-range panic. -/
def activeFeistelKey (c : CryptoConfig) : Option Nat :=
  if c.ActiveFeistelVersion < 0 then none
  else c.FeistelKeys[c.ActiveFeistelVersion.toNat]?

/-- The hash `hash/fnv` `New32a`: offset basis 2166136261, then for every byte
`hash ^= b; hash *= 16777619` modulo `2^32`. -/
def fnv32a (data : List Nat) : Nat :=
  data.foldl (fun h b => ((h ^^^ b) * 16777619) % 2 ^ 32) 2166136261

/-- The call `h.Write(data)` on a 32-bit FNV-1a hash in state `h`. -/
def fnv32aWrite (h : Nat) (data : List Nat) : Nat :=
  data.foldl (fun h b => ((h ^^^ b) * 16777619) % 2 ^ 32) h

/-- The key of a tenant: the active configured key when the tenant id or the
master secret is empty; otherwise `fnv.New32a()`, a write of the tenant id, a
write of the master secret, and `Sum32`. `none` is the index panic of
`FeistelKeys[ActiveFeistelVersion]`. -/
def TenantKey (c : CryptoConfig) (tenantID : List Nat) : Option Nat :=
  if tenantID = [] ∨ c.MasterFeistelSecret = [] then
    activeFeistelKey c
  else
    some (fnv32aWrite (fnv32aWrite 2166136261 tenantID) c.MasterFeistelSecret)

/-! ## Base62 over 64-bit numbers -/

/-- The alphabet `base62Chars`. -/
def base62Chars : List Char :=
  "0123456789abcdefghijklmnopqrstuvwxyzABCDEFGHIJKLMNOPQRSTUVWXYZ".toList

/-- The byte `base62Chars[i]`; `none` is the index panic. -/
def base62CharAt (i : Nat) : Option Nat := (base62Chars[i]?).map Char.toNat

/-- The value of one Base62 character, as the `switch` of `decodeBase62` and
`Base62Decode` computes it; `none` is the `default` branch. -/
def base62Val (c : Nat) : Option Nat :=
  if '0'.toNat ≤ c ∧ c ≤ '9'.toNat then some (c - '0'.toNat)
  else if 'a'.toNat ≤ c ∧ c ≤ 'z'.toNat then some (c - 'a'.toNat + 10)
  else if 'A'.toNat ≤ c ∧ c ≤ 'Z'.toNat then some (c - 'A'.toNat + 36)
  else none

/-- The digit loop of `EncodeBase62`: `for num > 0 { buf = append(buf,
base62Chars[num % 62]); num /= 62 }`. The characters come out least
significant first. The first argument bounds the number of iterations; the
loop divides `num` by 62 each time, so `num` itself is a sufficient bound. -/
def encodeBase62Loop : Nat → Nat → List Nat → List Nat
  | 0, _, buf => buf
  | fuel + 1, num, buf =>
    if num > 0 then
      encodeBase62Loop fuel (num / 62) (buf ++ [(base62CharAt (num % 62)).getD 0])
    else buf

/-- `EncodeBase62`: `"0"` for zero, otherwise the digits reversed in place. -/
def EncodeBase62 (num : Nat) : List Nat :=
  if num = 0 then ['0'.toNat] else (encodeBase62Loop num num []).reverse

/-- `decodeBase62`: accumulates `num = num*62 + val` in `int64`. -/
def decodeBase62 (str : List Nat) : Except String Int :=
  str.foldlM (fun (num : Int) c =>
    match base62Val c with
    | some val => Except.ok (wrapInt64 (num * 62 + (val : Int)))
    | none => Except.error "invalid base62 character") 0

/-! ## Encoding and decoding identifiers -/

/-- `EncodeID`: choose the key, obfuscate, Base62-encode. `none` is a panic
(only the index panic of the key lookup can occur). -/
def EncodeID (c : CryptoConfig) (id : Nat) (tenantID : List Nat) : Option (List Nat) := do
  let key ← activeFeistelKey c
  let key ← if tenantID ≠ [] then TenantKey c tenantID else pure key
  let obf := ObfuscateIDWithKey id key c.FeistelRounds
  pure (EncodeBase62 obf)

/-- `DecodeID`: Base62-decode into an `int64`, choose the key, run the reverse
loop, return `int64(left)<<32 | int64(right)`. The outer `Option` is a panic,
the inner `Except` the returned error. -/
def DecodeID (c : CryptoConfig) (encoded tenantID : List Nat) : Option (Except String Int) :=
  match decodeBase62 encoded with
  | Except.error e => some (Except.error e)
  | Except.ok num => do
    let key ← activeFeistelKey c
    let key ← if tenantID ≠ [] then TenantKey c tenantID else pure key
    pure (Except.ok (toInt64 (decodeIDLoop (toUint64 num) key c.FeistelRounds)))

/-! ## Fixed-block permutation: proof devices -/

/-- The configuration used in the concrete evaluations: one key, three rounds,
no master secret. -/
def sampleConfig : CryptoConfig :=
  ⟨[7], 0, 3, [], List.replicate 32 107, [104]⟩

/-- Proof device: the inverse of one `feistelRound`. -/
def feistelRoundInv (l r k : Nat) : Nat × Nat := (r ^^^ (feistelRound 0 l k).2, l)

/-- Both halves below `2^32`. -/
def Halves32 (p : Nat × Nat) : Prop := p.1 < 2 ^ 32 ∧ p.2 < 2 ^ 32

/-- The round loop of `ObfuscateIDWithKey` on a pair of halves. -/
def forwardRounds (key n : Nat) (p : Nat × Nat) : Nat × Nat :=
  (List.range n).foldl
    (fun (p : Nat × Nat) i => feistelRound p.1 p.2 ((key + i % 2 ^ 32) % 2 ^ 32)) p

/-- Proof device: the rounds undone in the opposite order. -/
def backwardRounds (key n : Nat) (p : Nat × Nat) : Nat × Nat :=
  (List.range n).reverse.foldl
    (fun (p : Nat × Nat) i => feistelRoundInv p.1 p.2 ((key + i % 2 ^ 32) % 2 ^ 32)) p

/-- Recombination `uint64(left)<<32 | uint64(right)` of two 32-bit halves. -/
def joinHalves (p : Nat × Nat) : Nat := ((p.1 <<< 32) % 2 ^ 64) ||| p.2

/-- The split `uint32(id >> 32), uint32(id & 0xffffffff)`. -/
def splitHalves (id : Nat) : Nat × Nat := ((id >>> 32) % 2 ^ 32, (id &&& 0xffffffff) % 2 ^ 32)

/-- Proof device: the inverse permutation of `ObfuscateIDWithKey`. -/
def unobfuscate (key : Nat) (rounds : Int) (y : Nat) : Nat :=
  joinHalves (backwardRounds key rounds.toNat (splitHalves y))

/-! ## Byte-mode Feistel permutation (`services/feistel.go`) -/

/-- The round function of the byte mode: `out[i] = half[i] + key[i%len(key)] +
byte(round)` in byte arithmetic. With an empty key the first iteration
evaluates `i % 0`, a run-time panic (`none`); an empty `half` runs no
iteration. -/
def feistelRoundStateless (half key : List Nat) (round : Nat) : Option (List Nat) :=
  if 0 < half.length ∧ key.length = 0 then none
  else some ((List.range half.length).map fun i =>
    (half.getD i 0 + key.getD (i % key.length) 0 + round % 256) % 256)

/-- The combine step `left[j] ^= fOut[j%len(fOut)]` for every `j < len(left)`.
Each index is written by exactly one goroutine and the round waits for all of
them, so the result is the element-wise update. An empty `fOut` with a
non-empty `left` is the panic of `j % 0`. -/
def xorInto (left fOut : List Nat) : Option (List Nat) :=
  if 0 < left.length ∧ fOut.length = 0 then none
  else some ((List.range left.length).map fun j =>
    left.getD j 0 ^^^ fOut.getD (j % fOut.length) 0)

/-- The padding and split shared by both directions: one zero byte appended to
an odd-length buffer, then the two halves. -/
def splitBytes (data : List Nat) : List Nat × List Nat :=
  let data := if data.length % 2 ≠ 0 then data ++ [0] else data
  (data.take (data.length / 2), data.drop (data.length / 2))

/-- One iteration of the loop of `ObfuscateBytes`: mix `right`, combine into
`left`, swap the halves. -/
def obfuscateRound (key : List Nat) (p : List Nat × List Nat) (i : Nat) :
    Option (List Nat × List Nat) := do
  let fOut ← feistelRoundStateless p.2 key i
  let left ← xorInto p.1 fOut
  pure (p.2, left)

/-- `ObfuscateBytes`: empty data is returned as is; otherwise pad, split, run
the rounds `i = 0, ..., rounds-1` and return `append(left, right...)`. -/
def ObfuscateBytes (data key : List Nat) (rounds : Int) : Option (List Nat) :=
  if data.length = 0 then some data
  else do
    let p ← (List.range rounds.toNat).foldlM (obfuscateRound key) (splitBytes data)
    pure (p.1 ++ p.2)

/-- One iteration of the loop of `DeobfuscateBytes`: swap the halves, mix the
new `right`, combine into the new `left`. -/
def deobfuscateRound (key : List Nat) (p : List Nat × List Nat) (i : Nat) :
    Option (List Nat × List Nat) := do
  let (left, right) := (p.2, p.1)
  let fOut ← feistelRoundStateless right key i
  let left ← xorInto left fOut
  pure (left, right)

/-- `DeobfuscateBytes`: as `ObfuscateBytes`, with the rounds
`i = rounds-1, ..., 0`. -/
def DeobfuscateBytes (data key : List Nat) (rounds : Int) : Option (List Nat) :=
  if data.length = 0 then some data
  else do
    let p ← (List.range rounds.toNat).reverse.foldlM (deobfuscateRound key) (splitBytes data)
    pure (p.1 ++ p.2)

/-- Proof device: the bytes that `feistelRoundStateless` produces when it does
not panic. -/
def mixBytes (half key : List Nat) (round : Nat) : List Nat :=
  (List.range half.length).map fun i =>
    (half.getD i 0 + key.getD (i % key.length) 0 + round % 256) % 256

/-- Proof device: the buffer after the padding step. -/
def padEven (data : List Nat) : List Nat :=
  if data.length % 2 = 0 then data else data ++ [0]

/-! ## Base62 over byte strings (`services/feistel.go`) -/

/-- The library call `new(big.Int).SetBytes(data)`: the bytes read as a
big-endian unsigned integer. -/
def bigIntSetBytes (data : List Nat) : Nat :=
  data.foldl (fun acc b => acc * 256 + b) 0

/-- The digit loop behind `big.Int.Bytes`: base-256 digits, most significant
first. The first argument bounds the number of iterations. -/
def bigIntBytesLoop : Nat → Nat → List Nat → List Nat
  | 0, _, acc => acc
  | fuel + 1, n, acc =>
    if n = 0 then acc else bigIntBytesLoop fuel (n / 256) (n % 256 :: acc)

/-- The library call `num.Bytes()`: the big-endian bytes of `num` without
leading zero bytes (the empty slice for zero). -/
def bigIntBytes (n : Nat) : List Nat := bigIntBytesLoop n n []

/-- The loop of `Base62Encode`: `for num > 0 { num, mod = num divmod 62;
result = string(base62Chars[mod]) + result }`. The first argument bounds the
number of iterations; `num` itself is a sufficient bound. -/
def base62EncodeLoop : Nat → Nat → List Nat → List Nat
  | 0, _, result => result
  | fuel + 1, num, result =>
    if num > 0 then
      base62EncodeLoop fuel (num / 62) ((base62CharAt (num % 62)).getD 0 :: result)
    else result

/-- `Base62Encode`: `"0"` when the bytes denote zero, otherwise the Base62
digits of the big-endian value, most significant first. -/
def Base62Encode (data : List Nat) : List Nat :=
  let num := bigIntSetBytes data
  if num = 0 then ['0'.toNat] else base62EncodeLoop num num []

/-- `Base62Decode`: accumulate `num = num*62 + idx` over the characters,
failing on the first character outside the alphabet; then `num.Bytes()`. -/
def Base62Decode (s : List Nat) : Except String (List Nat) := do
  let num ← s.foldlM (fun (num : Nat) c =>
    match base62Val c with
    | some idx => Except.ok (num * 62 + idx)
    | none => Except.error "invalid Base62 character") 0
  pure (bigIntBytes num)

/-- Proof device: the character of a Base62 digit. -/
def digitChar (d : Nat) : Nat := (base62CharAt d).getD 0

/-! ## Secure token pipeline (`services/secure_token.go`,
`services/secure_url_service.go`)

The pipeline calls three library primitives (zlib, AES-GCM, HMAC-SHA256). They
are parameters of the embedding, and the properties assumed of them are stated
in `CryptoPrimitives.Correct`. -/

/-- The library primitives used by the secure pipeline. -/
structure CryptoPrimitives where
  /-- The bytes written by a `zlib.Writer` for the given input. -/
  zlibCompress : List Nat → List Nat
  /-- The bytes read through a `zlib.Reader`, or `none` when reading fails. -/
  zlibDecompress : List Nat → Option (List Nat)
  /-- The call `gcm.Seal(nil, nonce, plaintext, nil)` for a given key. -/
  gcmSeal : List Nat → List Nat → List Nat → List Nat
  /-- The call `gcm.Open(nil, nonce, ciphertext, nil)` for a given key; `none`
  when authentication fails. -/
  gcmOpen : List Nat → List Nat → List Nat → Option (List Nat)
  /-- The HMAC-SHA256 tag of `data` under `key`. -/
  hmacSHA256 : List Nat → List Nat → List Nat

/-- Every element of the list is a byte value. -/
def IsBytes (l : List Nat) : Prop := ∀ x ∈ l, x < 256

instance (l : List Nat) : Decidable (IsBytes l) := by
  unfold IsBytes; infer_instance

/-- What is assumed of correct primitives: on byte strings the outputs are
byte strings, decompression and opening invert compression and sealing, and a
tag has 32 bytes. -/
structure CryptoPrimitives.Correct (P : CryptoPrimitives) : Prop where
  compress_bytes : ∀ d, IsBytes d → IsBytes (P.zlibCompress d)
  decompress_compress : ∀ d, IsBytes d → P.zlibDecompress (P.zlibCompress d) = some d
  seal_bytes : ∀ k n p, IsBytes p → IsBytes (P.gcmSeal k n p)
  open_seal : ∀ k n p, IsBytes p → P.gcmOpen k n (P.gcmSeal k n p) = some p
  hmac_bytes : ∀ k d, IsBytes (P.hmacSHA256 k d)
  hmac_length : ∀ k d, (P.hmacSHA256 k d).length = 32

/-- `Compress`: writing to an in-memory buffer does not fail. -/
def Compress (P : CryptoPrimitives) (data : List Nat) : Except String (List Nat) :=
  Except.ok (P.zlibCompress data)

/-- `Decompress`: the error of the reader is returned. -/
def Decompress (P : CryptoPrimitives) (data : List Nat) : Except String (List Nat) :=
  match P.zlibDecompress data with
  | some out => Except.ok out
  | none => Except.error "zlib: invalid data"

/-- The key sizes accepted by `aes.NewCipher`. -/
def aesKeySizeOK (secret : List Nat) : Bool :=
  secret.length = 16 || secret.length = 24 || secret.length = 32

/-- `EncryptAES`, with the 12 bytes read from `crypto/rand` as the argument
`nonce`: returns `nonce ++ ciphertext`. -/
def EncryptAES (P : CryptoPrimitives) (plaintext secret nonce : List Nat) :
    Except String (List Nat) :=
  if aesKeySizeOK secret then
    Except.ok (nonce ++ P.gcmSeal secret nonce plaintext)
  else Except.error "crypto/aes: invalid key size"

/-- `DecryptAES`: rejects data shorter than the nonce, then opens. -/
def DecryptAES (P : CryptoPrimitives) (cipherData secret : List Nat) :
    Except String (List Nat) :=
  if aesKeySizeOK secret then
    let nonceSize := 12
    if cipherData.length < nonceSize then Except.error "invalid cipher data"
    else
      let nonce := cipherData.take nonceSize
      let ciphertext := cipherData.drop nonceSize
      match P.gcmOpen secret nonce ciphertext with
      | some out => Except.ok out
      | none => Except.error "cipher: message authentication failed"
  else Except.error "crypto/aes: invalid key size"

/-- `GenerateHMAC`. -/
def GenerateHMAC (P : CryptoPrimitives) (data secret : List Nat) : List Nat :=
  P.hmacSHA256 secret data

/-- `VerifyHMAC`: `hmac.Equal` of the expected and the received tag. -/
def VerifyHMAC (P : CryptoPrimitives) (data receivedMAC secret : List Nat) : Bool :=
  GenerateHMAC P data secret = receivedMAC

/-- `SecureURLService.Create`, with the nonce drawn by `EncryptAES` as an
argument. -/
def SecureURLService.Create (P : CryptoPrimitives) (c : CryptoConfig)
    (longURL nonce : List Nat) : Except String (List Nat) :=
  match Compress P longURL with
  | Except.error _ => Except.error "compression failed"
  | Except.ok compressed =>
    match EncryptAES P compressed c.AESSecret nonce with
    | Except.error _ => Except.error "encryption failed"
    | Except.ok encrypted =>
      let signature := GenerateHMAC P encrypted c.HMACSecret
      let finalPayload := encrypted ++ signature
      Except.ok (Base62Encode finalPayload)

/-- `SecureURLService.Resolve`. -/
def SecureURLService.Resolve (P : CryptoPrimitives) (c : CryptoConfig)
    (shortCode : List Nat) : Except String (List Nat) :=
  match Base62Decode shortCode with
  | Except.error _ => Except.error "invalid URL"
  | Except.ok data =>
    if data.length < 32 then Except.error "invalid token"
    else
      let signature := data.drop (data.length - 32)
      let encrypted := data.take (data.length - 32)
      if !VerifyHMAC P encrypted signature c.HMACSecret then Except.error "tampered URL"
      else
        match DecryptAES P encrypted c.AESSecret with
        | Except.error _ => Except.error "decryption failed"
        | Except.ok decrypted =>
          match Decompress P decrypted with
          | Except.error _ => Except.error "corrupted data"
          | Except.ok original => Except.ok original

/-- A stand-in instance of the primitives, used only to show that the
assumptions made of the primitives can be met together: compression is the
identity, sealing appends a 16-byte tag derived from the nonce, and the
32-byte tag starts with the length of the message and the sum of its bytes.
It has none of the security of the real primitives. -/
def standInPrimitives : CryptoPrimitives where
  zlibCompress d := d
  zlibDecompress d := some d
  gcmSeal _ n p := p ++ List.replicate 16 (n.sum % 256)
  gcmOpen _ n ct :=
    if 16 ≤ ct.length ∧ ct.drop (ct.length - 16) = List.replicate 16 (n.sum % 256) then
      some (ct.take (ct.length - 16))
    else none
  hmacSHA256 k d := [d.length % 256, (k.sum + d.sum) % 256] ++ List.replicate 30 0

/-! ## Identifier generator (`services/id_generator.go`) -/

/-- The constant `nodeBits`. -/
def nodeBits : Nat := 10

/-- The constant `sequenceBits`. -/
def sequenceBits : Nat := 8

/-- The constant `maxNode = -1 ^ (-1 << nodeBits)`, that is 1023. -/
def maxNode : Int := 2 ^ nodeBits - 1

/-- The constant `maxSequence = -1 ^ (-1 << sequenceBits)`, that is 255. -/
def maxSequence : Int := 2 ^ sequenceBits - 1

/-- The fields of `IDGenerator`, all `int64`. -/
structure IDGenerator where
  lastTs : Int
  sequence : Int
  nodeID : Int
deriving Repr, DecidableEq

/-- `NewIDGenerator`: `none` is the panic on a node id outside `0..maxNode`;
otherwise the generator with that node id and zero timestamp and sequence. -/
def NewIDGenerator (nodeID : Int) : Option IDGenerator :=
  if nodeID > maxNode ∨ nodeID < 0 then none else some ⟨0, 0, nodeID⟩

/-- The expression `(uint64(now) << (nodeBits + sequenceBits)) |
(uint64(g.nodeID) << sequenceBits) | uint64(sequence)` on `uint64`. -/
def composeID (now nodeID sequence : Int) : Nat :=
  ((toUint64 now <<< (nodeBits + sequenceBits)) % 2 ^ 64) |||
    ((toUint64 nodeID <<< sequenceBits) % 2 ^ 64) ||| toUint64 sequence

/-- One iteration of the loop of `NextID` in a sequential execution, for the
clock reading `now` (the value of `time.Now().UnixMilli() - epoch`). It returns
the generator after the iteration and the identifier returned, or `none` when
the iteration ends in `time.Sleep` and `continue`.

`x & maxSequence` on the two's-complement `int64` value `x` is the
non-negative remainder `x % (maxSequence + 1)`. The identifier is composed
from the sequence field as loaded after the update, not from `seq`. -/
def nextIDIter (g : IDGenerator) (now : Int) : IDGenerator × Option Nat :=
  let last := g.lastTs
  if now = last then
    let g1 : IDGenerator := ⟨g.lastTs, wrapInt64 (g.sequence + 1), g.nodeID⟩
    let seq := g1.sequence % (maxSequence + 1)
    if seq = 0 then (g1, none)
    else (g1, some (composeID now g1.nodeID g1.sequence))
  else
    let g1 : IDGenerator := ⟨now, 0, g.nodeID⟩
    (g1, some (composeID now g1.nodeID g1.sequence))

/-- `NextID` in a sequential execution. The list holds the successive clock
readings; each iteration of the loop takes the next one. The result is the
identifier returned, the generator afterwards and the readings not yet taken;
`none` means that the loop is still waiting when the readings run out. -/
def NextID (g : IDGenerator) : List Int → Option (Nat × IDGenerator × List Int)
  | [] => none
  | now :: rest =>
    match nextIDIter g now with
    | (g1, some id) => some (id, g1, rest)
    | (g1, none) => NextID g1 rest

/-- The identifiers returned, in order, by successive sequential calls of
`NextID` on one generator that together take the given clock readings. -/
def NextIDs (g : IDGenerator) : List Int → List Nat
  | [] => []
  | now :: rest =>
    match nextIDIter g now with
    | (g1, some id) => id :: NextIDs g1 rest
    | (g1, none) => NextIDs g1 rest

/-- The reading taken after an iteration that ended in the sequence-exhaustion
wait is strictly later than the reading of that iteration. -/
def AdvancesAfterWait (g : IDGenerator) : List Int → Prop
  | [] => True
  | [_] => True
  | now :: next :: rest =>
    ((nextIDIter g now).2 = none → now < next) ∧
      AdvancesAfterWait (nextIDIter g now).1 (next :: rest)

/-- Proof device: the value `lastTs * 2^18 + nodeID * 2^8 + sequence` of a
generator state, which every identifier issued later exceeds. -/
def stateKey (g : IDGenerator) : Int := g.lastTs * 2 ^ 18 + g.nodeID * 2 ^ 8 + g.sequence

instance decAdvancesAfterWait :
    (g : IDGenerator) → (clock : List Int) → Decidable (AdvancesAfterWait g clock)
  | _, [] => isTrue trivial
  | _, [_] => isTrue trivial
  | g, now :: next :: rest =>
    match decAdvancesAfterWait (nextIDIter g now).1 (next :: rest) with
    | isTrue h2 =>
      if h1 : (nextIDIter g now).2 = none → now < next then isTrue ⟨h1, h2⟩
      else isFalse (fun h => h1 h.1)
    | isFalse h2 => isFalse (fun h => h2 h.2)

/-! ### Concurrent callers of `NextID`

The operations of `sync/atomic` are sequentially consistent, so an execution
with several callers is an interleaving of their atomic operations. Each
caller is at one of the program points below; a step performs the next
operation of one caller. -/

/-- The program points of one caller inside `NextID`, with the value of the
local variable `now` once it has been read. -/
inductive WorkerPC where
  /-- About to read the clock (start of a loop iteration). -/
  | atClock
  /-- About to run `atomic.LoadInt64(&g.lastTs)` and compare. -/
  | atLoadLast (now : Int)
  /-- About to run `atomic.AddInt64(&g.sequence, 1)`. -/
  | atAdd (now : Int)
  /-- About to run `atomic.StoreInt64(&g.sequence, 0)`. -/
  | atStoreSeq (now : Int)
  /-- About to run `atomic.StoreInt64(&g.lastTs, now)`. -/
  | atStoreTs (now : Int)
  /-- About to run `atomic.LoadInt64(&g.sequence)` and compose the id. -/
  | atCompose (now : Int)
  /-- The call has returned the identifier. -/
  | returned (id : Nat)
deriving Repr, DecidableEq

/-- The next operation of a caller at the given program point, on the shared
generator `g`; `clock` is the clock value at that moment, used only by the
clock read. -/
def workerStep (g : IDGenerator) (clock : Int) : WorkerPC → IDGenerator × WorkerPC
  | WorkerPC.atClock => (g, WorkerPC.atLoadLast clock)
  | WorkerPC.atLoadLast now =>
    if now = g.lastTs then (g, WorkerPC.atAdd now) else (g, WorkerPC.atStoreSeq now)
  | WorkerPC.atAdd now =>
    let g1 : IDGenerator := ⟨g.lastTs, wrapInt64 (g.sequence + 1), g.nodeID⟩
    if g1.sequence % (maxSequence + 1) = 0 then (g1, WorkerPC.atClock)
    else (g1, WorkerPC.atCompose now)
  | WorkerPC.atStoreSeq now => (⟨g.lastTs, 0, g.nodeID⟩, WorkerPC.atStoreTs now)
  | WorkerPC.atStoreTs now => (⟨now, g.sequence, g.nodeID⟩, WorkerPC.atCompose now)
  | WorkerPC.atCompose now => (g, WorkerPC.returned (composeID now g.nodeID g.sequence))
  | WorkerPC.returned id => (g, WorkerPC.returned id)

/-- A generator shared by several callers, their program points, and the
identifiers returned so far in the order of their return. -/
structure Shared where
  g : IDGenerator
  workers : List WorkerPC
  emitted : List Nat
deriving Repr, DecidableEq

/-- One step of the interleaving: the caller with index `e.1` performs its next
operation while the clock shows `e.2`. A caller whose operation is the final
load returns, and its identifier is appended to `emitted`. -/
def Shared.step (s : Shared) (e : Nat × Int) : Shared :=
  match s.workers[e.1]? with
  | none => s
  | some pc =>
    let r := workerStep s.g e.2 pc
    let emitted :=
      match pc, r.2 with
      | WorkerPC.atCompose _, WorkerPC.returned id => s.emitted ++ [id]
      | _, _ => s.emitted
    ⟨r.1, s.workers.set e.1 r.2, emitted⟩

/-- An interleaving: the list of (caller, clock value) of its steps. -/
def Shared.run (s : Shared) (schedule : List (Nat × Int)) : Shared :=
  schedule.foldl Shared.step s

/-- One loop iteration of a caller that runs alone: the clock read followed by
its operations up to the return or the `continue`. -/
def soloIteration (g : IDGenerator) (now : Int) : IDGenerator × Option Nat :=
  let s1 := workerStep g now WorkerPC.atClock
  let s2 := workerStep s1.1 now s1.2
  let s3 := workerStep s2.1 now s2.2
  let s4 := workerStep s3.1 now s3.2
  let s5 := workerStep s4.1 now s4.2
  match s3.2, s5.2 with
  | WorkerPC.atClock, _ => (s3.1, none)
  | _, WorkerPC.returned id => (s5.1, some id)
  | _, _ => (s5.1, none)

/-! ## Base62: reference notions for the statements

These definitions follow the wording of the specification, not the code: the
alphabet in its digit order, the value of a digit string, and the big-endian
bytes of a number. -/

/-- The bytes of the alphabet in the digit order `0-9`, `a-z`, `A-Z`. -/
def base62Alphabet : List Nat := base62Chars.map Char.toNat

/-- The position of a byte in the digit order (62 for a byte outside it). -/
def base62Index (c : Nat) : Nat := base62Alphabet.indexOf c

/-- The base-62 value of a string read most significant digit first. -/
def base62Value (s : List Nat) : Nat := Nat.ofDigits 62 (s.reverse.map base62Index)

/-- The value of a byte buffer read as a big-endian unsigned integer. -/
def bigEndianValue (b : List Nat) : Nat := Nat.ofDigits 256 b.reverse

/-- The big-endian bytes of a number, without leading zero bytes. -/
def bigEndianBytes (n : Nat) : List Nat := (Nat.digits 256 n).reverse

/-- A configuration with a master secret (`"s3"`) and two keys, the second one
active, used in the concrete evaluations of the tenant key. -/
def tenantConfig : CryptoConfig :=
  ⟨[7, 1234567], 1, 3, [115, 51], List.replicate 32 107, [104]⟩

/-! ## Stateless resolution (`services/url_service.go`)

`ResolveStateless` calls the library (`unicode/utf8`, `bytes.Runes`) and the
tenant directory. They are parameters of the embedding. -/

/-- The collaborators of `ResolveStateless` outside the package. -/
structure Collaborators where
  /-- The library call `utf8.Valid(data)`. -/
  utf8Valid : List Nat → Bool
  /-- The conversion `string(bytes.Runes(data))`. -/
  runesToString : List Nat → List Nat
  /-- The base URL of the tenant found by `tenantRepo.GetByID`; `none` when
  the lookup fails or finds no tenant. -/
  tenantBaseURL : List Nat → Option (List Nat)

/-- The library call `bytes.TrimRight(data, "\x00")`. -/
def trimRightZero (data : List Nat) : List Nat :=
  (data.reverse.dropWhile (fun x => x = 0)).reverse

/-- `BytesToStringSafe`: trim the padding, keep valid UTF-8 as it is and
convert anything else rune by rune. -/
def BytesToStringSafe (H : Collaborators) (data : List Nat) : List Nat :=
  let data := trimRightZero data
  if H.utf8Valid data then data else H.runesToString data

/-- `URLService.ResolveStateless`. The outer `Option` is a panic, the inner
`Except` the returned error. The key is the tenant id when one is given and
the master secret otherwise. -/
def URLService.ResolveStateless (P : CryptoPrimitives) (H : Collaborators)
    (c : CryptoConfig) (shortCode tenantID : List Nat) : Option (Except String (List Nat)) :=
  match Base62Decode shortCode with
  | Except.error _ => some (Except.error "invalid short url")
  | Except.ok encodedBytes =>
    let key := if tenantID ≠ [] then tenantID else c.MasterFeistelSecret
    match DeobfuscateBytes encodedBytes key c.FeistelRounds with
    | none => none
    | some decoded =>
      match Decompress P decoded with
      | Except.error _ => some (Except.error "corrupted data")
      | Except.ok originalBytes =>
        let longURL := BytesToStringSafe H originalBytes
        let longURL :=
          if tenantID ≠ [] then
            match H.tenantBaseURL tenantID with
            | some base => if base ≠ [] then base ++ longURL else longURL
            | none => longURL
          else longURL
        some (Except.ok longURL)

/-- Stand-in collaborators for the concrete evaluations: every buffer counts
as valid UTF-8 and no tenant has a base URL. -/
def standInCollaborators : Collaborators :=
  ⟨fun _ => true, fun data => data, fun _ => none⟩

/-- The string `s` with bit `k` of its byte at position `i` flipped. -/
def flipBit (s : List Nat) (i k : Nat) : List Nat :=
  s.set i (s.getD i 0 ^^^ 2 ^ k)

/-! ## Fixed-block permutation: reference in the words of the specification -/

/-- Rotation of a 32-bit value to the left by `k` bits. -/
def rotateLeft32 (x k : Nat) : Nat := (x * 2 ^ k) % 2 ^ 32 + x / 2 ^ (32 - k)

/-- The mixing function of the specification: rotate `right + key + i` (modulo
`2^32`) left by 7 and multiply by `0x9e3779b9` modulo `2^32`. -/
def referenceMix (right key i : Nat) : Nat :=
  (rotateLeft32 ((right + key + i) % 2 ^ 32) 7 * 0x9e3779b9) % 2 ^ 32

/-- The rounds `0, ..., n-1` of the specification on a pair of halves:
`(left, right) := (right, left XOR mix (right, key, i))`. -/
def referenceRounds (key : Nat) : Nat → Nat × Nat → Nat × Nat
  | 0, p => p
  | n + 1, p =>
    let q := referenceRounds key n p
    (q.2, q.1 ^^^ referenceMix q.2 key n)

/-- The reference for `ObfuscateIDWithKey`: high and low 32 bits, the rounds,
and `left * 2^32 + right`. -/
def obfuscateReference (id key rounds : Nat) : Nat :=
  let p := referenceRounds key rounds (id / 2 ^ 32, id % 2 ^ 32)
  p.1 * 2 ^ 32 + p.2

/-! ## Byte mode: reference in the words of the specification, and the combine
step one index at a time -/

/-- The mixing function of round `i` in the words of the specification:
`F_i(R)[j] = (R[j] + key[j mod len(key)] + i) mod 256`. -/
def referenceF (R key : List Nat) (i : Nat) : List Nat :=
  (List.range R.length).map fun j => (R.getD j 0 + key.getD (j % key.length) 0 + i) % 256

/-- The rounds `0, ..., n-1` of the specification on a pair of halves:
`(L, R) := (R, L XOR F_i(R))`. -/
def referenceByteRounds (key : List Nat) : Nat → List Nat × List Nat → List Nat × List Nat
  | 0, p => p
  | n + 1, p =>
    let q := referenceByteRounds key n p
    (q.2, List.zipWith (fun a b => a ^^^ b) q.1 (referenceF q.2 key n))

/-- The reference for `ObfuscateBytes`: one zero byte appended to an odd-length
buffer, the two halves, the rounds, and `L` followed by `R`. -/
def obfuscateBytesReference (b key : List Nat) (rounds : Nat) : List Nat :=
  let padded := if b.length % 2 = 1 then b ++ [0] else b
  let n := padded.length / 2
  let p := referenceByteRounds key rounds (padded.take n, padded.drop n)
  p.1 ++ p.2

/-- The combine step with the statements `left[j] ^= fOut[j%len(fOut)]` of the
goroutines executed one after the other in the order `order`. The goroutines
write distinct bytes of `left` and only read `fOut`. -/
def xorIntoInOrder (order : List Nat) (left fOut : List Nat) : Option (List Nat) :=
  if 0 < left.length ∧ fOut.length = 0 then none
  else some (order.foldl
    (fun l j => l.set j (l.getD j 0 ^^^ fOut.getD (j % fOut.length) 0)) left)

/-- One iteration of the loop of `ObfuscateBytes` with the goroutines of the
combine step run in the order `order`. -/
def obfuscateRoundInOrder (key : List Nat) (order : List Nat) (p : List Nat × List Nat)
    (i : Nat) : Option (List Nat × List Nat) := do
  let fOut ← feistelRoundStateless p.2 key i
  let left ← xorIntoInOrder order p.1 fOut
  pure (p.2, left)

/-- `ObfuscateBytes` with the goroutines of round `i` run in the order
`sched i`. -/
def ObfuscateBytesInOrder (sched : Nat → List Nat) (data key : List Nat) (rounds : Int) :
    Option (List Nat) :=
  if data.length = 0 then some data
  else do
    let p ← (List.range rounds.toNat).foldlM
      (fun p i => obfuscateRoundInOrder key (sched i) p i) (splitBytes data)
    pure (p.1 ++ p.2)

/-! ## Conversion between `int64` and bytes (`services/feistel.go`) -/

/-- `Int64ToBytes`: the eight bytes that `binary.BigEndian.PutUint64` writes
for `uint64(val)`, most significant first. -/
def Int64ToBytes (val : Int) : List Nat :=
  let v := toUint64 val
  [(v >>> 56) % 256, (v >>> 48) % 256, (v >>> 40) % 256, (v >>> 32) % 256,
    (v >>> 24) % 256, (v >>> 16) % 256, (v >>> 8) % 256, v % 256]

/-! # Theorems -/

/-! ## Properties of the fixed-block permutation -/

theorem feistelRound_eq (l r k : Nat) :
    feistelRound l r k = (r, l ^^^ (feistelRound 0 r k).2) := by
  simp [feistelRound]

theorem feistelRound_snd_zero_lt (r k : Nat) : (feistelRound 0 r k).2 < 2 ^ 32 := by
  simp only [feistelRound, Nat.zero_xor]
  exact Nat.mod_lt _ (by norm_num)

theorem feistelRoundInv_round (l r k : Nat) :
    feistelRoundInv (feistelRound l r k).1 (feistelRound l r k).2 k = (l, r) := by
  rw [feistelRound_eq l r k]
  simp [feistelRoundInv, Nat.xor_assoc]

theorem feistelRound_roundInv (l r k : Nat) :
    feistelRound (feistelRoundInv l r k).1 (feistelRoundInv l r k).2 k = (l, r) := by
  rw [feistelRound_eq]
  simp [feistelRoundInv, Nat.xor_assoc]

theorem feistelRound_halves (l r k : Nat) (h : Halves32 (l, r)) :
    Halves32 (feistelRound l r k) := by
  rw [feistelRound_eq]
  exact ⟨h.2, Nat.xor_lt_two_pow h.1 (feistelRound_snd_zero_lt r k)⟩

theorem feistelRoundInv_halves (l r k : Nat) (h : Halves32 (l, r)) :
    Halves32 (feistelRoundInv l r k) :=
  ⟨Nat.xor_lt_two_pow h.2 (feistelRound_snd_zero_lt l k), h.1⟩

theorem forwardRounds_succ (key n : Nat) (p : Nat × Nat) :
    forwardRounds key (n + 1) p =
      feistelRound (forwardRounds key n p).1 (forwardRounds key n p).2
        ((key + n % 2 ^ 32) % 2 ^ 32) := by
  simp [forwardRounds, List.range_succ]

theorem backwardRounds_succ (key n : Nat) (p : Nat × Nat) :
    backwardRounds key (n + 1) p =
      backwardRounds key n (feistelRoundInv p.1 p.2 ((key + n % 2 ^ 32) % 2 ^ 32)) := by
  simp [backwardRounds, List.range_succ]

theorem backward_forward (key n : Nat) (p : Nat × Nat) :
    backwardRounds key n (forwardRounds key n p) = p := by
  induction n with
  | zero => simp [backwardRounds, forwardRounds]
  | succ n ih =>
    rw [backwardRounds_succ, forwardRounds_succ, feistelRoundInv_round, ih]

theorem forward_backward (key n : Nat) (p : Nat × Nat) :
    forwardRounds key n (backwardRounds key n p) = p := by
  induction n generalizing p with
  | zero => simp [backwardRounds, forwardRounds]
  | succ n ih =>
    rw [backwardRounds_succ, forwardRounds_succ, ih, feistelRound_roundInv]

theorem forwardRounds_halves (key n : Nat) (p : Nat × Nat) (h : Halves32 p) :
    Halves32 (forwardRounds key n p) := by
  induction n with
  | zero => simpa [forwardRounds] using h
  | succ n ih => rw [forwardRounds_succ]; exact feistelRound_halves _ _ _ ih

theorem backwardRounds_halves (key n : Nat) (p : Nat × Nat) (h : Halves32 p) :
    Halves32 (backwardRounds key n p) := by
  induction n generalizing p with
  | zero => simpa [backwardRounds] using h
  | succ n ih => rw [backwardRounds_succ]; exact ih _ (feistelRoundInv_halves _ _ _ h)

theorem splitHalves_eq (id : Nat) (h : id < 2 ^ 64) :
    splitHalves id = (id / 2 ^ 32, id % 2 ^ 32) := by
  have e : (0xffffffff : Nat) = 2 ^ 32 - 1 := by norm_num
  simp only [splitHalves, e, Nat.and_pow_two_sub_one_eq_mod, Nat.shiftRight_eq_div_pow,
    Nat.mod_mod]
  rw [Nat.mod_eq_of_lt]
  omega

theorem joinHalves_eq (p : Nat × Nat) (h : Halves32 p) :
    joinHalves p = p.1 * 2 ^ 32 + p.2 := by
  obtain ⟨h1, h2⟩ := h
  simp only [joinHalves, Nat.shiftLeft_eq]
  rw [Nat.mod_eq_of_lt (by omega), Nat.mul_comm, Nat.mul_add_lt_is_or h2]

theorem splitHalves_halves (id : Nat) : Halves32 (splitHalves id) :=
  ⟨Nat.mod_lt _ (by norm_num), Nat.mod_lt _ (by norm_num)⟩

theorem joinHalves_lt (p : Nat × Nat) (h : Halves32 p) : joinHalves p < 2 ^ 64 := by
  rw [joinHalves_eq p h]; obtain ⟨h1, h2⟩ := h; omega

theorem split_join (p : Nat × Nat) (h : Halves32 p) : splitHalves (joinHalves p) = p := by
  rw [splitHalves_eq _ (joinHalves_lt p h), joinHalves_eq p h]
  obtain ⟨h1, h2⟩ := h
  ext <;> simp <;> omega

theorem join_split (id : Nat) (h : id < 2 ^ 64) : joinHalves (splitHalves id) = id := by
  rw [joinHalves_eq _ (splitHalves_halves id), splitHalves_eq id h]
  simp only
  omega

theorem ObfuscateIDWithKey_eq (id key : Nat) (rounds : Int) :
    ObfuscateIDWithKey id key rounds =
      joinHalves (forwardRounds key rounds.toNat (splitHalves id)) := rfl

theorem unobfuscate_lt (key : Nat) (rounds : Int) (y : Nat) :
    unobfuscate key rounds y < 2 ^ 64 :=
  joinHalves_lt _ (backwardRounds_halves _ _ _ (splitHalves_halves y))

theorem ObfuscateIDWithKey_lt (id key : Nat) (rounds : Int) :
    ObfuscateIDWithKey id key rounds < 2 ^ 64 :=
  joinHalves_lt _ (forwardRounds_halves _ _ _ (splitHalves_halves id))

theorem unobfuscate_obfuscate (key : Nat) (rounds : Int) (id : Nat) (h : id < 2 ^ 64) :
    unobfuscate key rounds (ObfuscateIDWithKey id key rounds) = id := by
  rw [ObfuscateIDWithKey_eq, unobfuscate,
    split_join _ (forwardRounds_halves _ _ _ (splitHalves_halves id)),
    backward_forward, join_split id h]

theorem obfuscate_unobfuscate (key : Nat) (rounds : Int) (y : Nat) (h : y < 2 ^ 64) :
    ObfuscateIDWithKey (unobfuscate key rounds y) key rounds = y := by
  rw [ObfuscateIDWithKey_eq, unobfuscate,
    split_join _ (backwardRounds_halves _ _ _ (splitHalves_halves y)),
    forward_backward, join_split y h]

/-- C1 (evaluation at a failing input): with key 7 and 3 rounds the id 42 is
obfuscated to 7967623127097966911, and the reverse loop of `DecodeID` maps
that value to 4439994057910003740, not back to 42; the same happens through
`EncodeID` and `DecodeID` under a loaded configuration. -/
theorem DecodeID_does_not_undo_EncodeID :
    sampleConfig.Loaded ∧
    ObfuscateIDWithKey 42 7 3 = 7967623127097966911 ∧
    decodeIDLoop 7967623127097966911 7 3 = 4439994057910003740 ∧
    (EncodeID sampleConfig 42 []).bind (fun code => DecodeID sampleConfig code []) =
      some (Except.ok 4439994057910003740) := by
  refine ⟨?_, by decide, by decide, by decide⟩
  simp [CryptoConfig.Loaded, sampleConfig]

/-- C6: for every key and every round count, `ObfuscateIDWithKey` restricted
to the 64-bit values is a bijection of the 64-bit values onto themselves: it
maps them into themselves, is injective on them, and reaches every one. -/
theorem ObfuscateIDWithKey_bijective (key : Nat) (rounds : Int) :
    Set.BijOn (fun id => ObfuscateIDWithKey id key rounds)
      {id | id < 2 ^ 64} {y | y < 2 ^ 64} := by
  have hinv : Set.InvOn (unobfuscate key rounds) (fun id => ObfuscateIDWithKey id key rounds)
      {id | id < 2 ^ 64} {y | y < 2 ^ 64} :=
    ⟨fun id hid => unobfuscate_obfuscate key rounds id hid,
     fun y hy => obfuscate_unobfuscate key rounds y hy⟩
  exact hinv.bijOn (fun id _ => ObfuscateIDWithKey_lt id key rounds)
    (fun y _ => unobfuscate_lt key rounds y)

/-! ## Properties of the byte-mode permutation -/

theorem feistelRoundStateless_eq (half key : List Nat) (round : Nat) (hk : key ≠ []) :
    feistelRoundStateless half key round = some (mixBytes half key round) := by
  have : key.length ≠ 0 := by simpa using hk
  simp [feistelRoundStateless, mixBytes, this]

theorem length_mixBytes (half key : List Nat) (round : Nat) :
    (mixBytes half key round).length = half.length := by
  simp [mixBytes]

theorem xorInto_eq (left fOut : List Nat) (h : left.length = fOut.length) :
    xorInto left fOut = some (List.zipWith (fun a b => a ^^^ b) left fOut) := by
  have hne : ¬ (0 < left.length ∧ fOut.length = 0) := by omega
  simp only [xorInto, hne, if_false, Option.some.injEq]
  apply List.ext_getElem
  · simp [h]
  · intro j h1 h2
    have hj : j < left.length := by simpa using h1
    have hj2 : j < fOut.length := by omega
    simp [List.getD_eq_getElem?_getD, List.getElem?_eq_getElem hj, Nat.mod_eq_of_lt hj2,
      List.getElem?_eq_getElem hj2]

theorem zipWith_xor_cancel (l f : List Nat) (h : l.length = f.length) :
    List.zipWith (fun a b => a ^^^ b) (List.zipWith (fun a b => a ^^^ b) l f) f = l := by
  induction l generalizing f with
  | nil => simp
  | cons a l ih =>
    cases f with
    | nil => simp at h
    | cons b f =>
      simp only [List.zipWith_cons_cons, List.cons.injEq]
      refine ⟨?_, ih f (by simpa using h)⟩
      rw [Nat.xor_assoc, Nat.xor_self, Nat.xor_zero]

/-- One forward round on halves of equal length succeeds, keeps the lengths,
and is undone by the backward round of the same index. -/
theorem obfuscateRound_eq (key : List Nat) (hk : key ≠ []) (p : List Nat × List Nat)
    (hp : p.1.length = p.2.length) (i : Nat) :
    ∃ q, obfuscateRound key p i = some q ∧ q.1.length = p.1.length ∧
      q.2.length = p.1.length ∧ deobfuscateRound key q i = some p := by
  obtain ⟨l, r⟩ := p
  simp only at hp
  have hlen : l.length = (mixBytes r key i).length := by rw [length_mixBytes, hp]
  have hlen2 : (List.zipWith (fun a b => a ^^^ b) l (mixBytes r key i)).length =
      (mixBytes r key i).length := by simp [length_mixBytes, hp]
  refine ⟨(r, List.zipWith (fun a b => a ^^^ b) l (mixBytes r key i)), ?_, ?_, ?_, ?_⟩
  · simp [obfuscateRound, feistelRoundStateless_eq _ _ _ hk, xorInto_eq _ _ hlen]
  · simp [hp]
  · simp [hp, length_mixBytes]
  · simp [deobfuscateRound, feistelRoundStateless_eq _ _ _ hk, xorInto_eq _ _ hlen2,
      zipWith_xor_cancel _ _ hlen]

/-- The forward loop succeeds on halves of equal length, keeps the lengths,
and the backward loop undoes it. -/
theorem obfuscate_loop (key : List Nat) (hk : key ≠ []) (n : Nat) (p : List Nat × List Nat)
    (hp : p.1.length = p.2.length) :
    ∃ q, (List.range n).foldlM (obfuscateRound key) p = some q ∧
      q.1.length = p.1.length ∧ q.2.length = p.1.length ∧
      (List.range n).reverse.foldlM (deobfuscateRound key) q = some p := by
  induction n with
  | zero => exact ⟨p, by simp [hp]⟩
  | succ n ih =>
    obtain ⟨q, hq, h1, h2, hback⟩ := ih
    obtain ⟨q', hq', h1', h2', hback'⟩ := obfuscateRound_eq key hk q (by omega) n
    refine ⟨q', ?_, by omega, by omega, ?_⟩
    · simp [List.range_succ, List.foldlM_append, hq, hq']
    · rw [List.range_succ, List.reverse_append, List.reverse_singleton, List.singleton_append,
        List.foldlM_cons, hback']
      exact hback

theorem splitBytes_eq (b : List Nat) :
    splitBytes b = ((padEven b).take ((padEven b).length / 2),
      (padEven b).drop ((padEven b).length / 2)) := by
  by_cases h : b.length % 2 = 0 <;> simp [splitBytes, padEven, h]

theorem length_padEven (b : List Nat) : (padEven b).length % 2 = 0 ∧ b.length ≤ (padEven b).length := by
  by_cases h : b.length % 2 = 0
  · simp [padEven, h]
  · simp only [padEven, h, if_false, List.length_append, List.length_singleton]
    omega

theorem splitBytes_append (l r : List Nat) (h : l.length = r.length) :
    splitBytes (l ++ r) = (l, r) := by
  have h3 : (l ++ r).length % 2 = 0 := by simp only [List.length_append]; omega
  have h2 : (l ++ r).length / 2 = l.length := by simp only [List.length_append]; omega
  rw [splitBytes_eq]
  simp only [padEven, h3, if_true, h2]
  simp

theorem splitBytes_spec (b : List Nat) :
    (splitBytes b).1.length = (splitBytes b).2.length ∧
    (splitBytes b).1 ++ (splitBytes b).2 = padEven b ∧
    (b ≠ [] → 0 < (splitBytes b).1.length) := by
  obtain ⟨heven, hle⟩ := length_padEven b
  rw [splitBytes_eq]
  simp only [List.take_append_drop, List.length_take, List.length_drop, true_and]
  refine ⟨by omega, fun hb => ?_⟩
  have : 0 < b.length := List.length_pos.mpr hb
  omega

theorem IsBytes.append {l r : List Nat} (hl : IsBytes l) (hr : IsBytes r) : IsBytes (l ++ r) := by
  intro x hx
  rcases List.mem_append.mp hx with h | h
  · exact hl x h
  · exact hr x h

theorem isBytes_mixBytes (half key : List Nat) (round : Nat) :
    IsBytes (mixBytes half key round) := by
  intro x hx
  simp only [mixBytes, List.mem_map] at hx
  obtain ⟨i, _, rfl⟩ := hx
  exact Nat.mod_lt _ (by decide)

theorem isBytes_zipWith_xor (l f : List Nat) (hl : IsBytes l) (hf : IsBytes f) :
    IsBytes (List.zipWith (fun a b => a ^^^ b) l f) := by
  induction l generalizing f with
  | nil => intro x hx; simp at hx
  | cons a l ih =>
    cases f with
    | nil => intro x hx; simp at hx
    | cons b f =>
      intro x hx
      simp only [List.zipWith_cons_cons, List.mem_cons] at hx
      rcases hx with rfl | hx
      · exact Nat.xor_lt_two_pow (n := 8) (hl a (List.mem_cons_self _ _))
          (hf b (List.mem_cons_self _ _))
      · exact ih f (fun y hy => hl y (List.mem_cons_of_mem _ hy))
          (fun y hy => hf y (List.mem_cons_of_mem _ hy)) x hx

/-- A forward round keeps both halves byte strings. -/
theorem obfuscateRound_bytes (key : List Nat) (hk : key ≠ []) (p q : List Nat × List Nat)
    (hp : p.1.length = p.2.length) (i : Nat) (hq : obfuscateRound key p i = some q)
    (h1 : IsBytes p.1) (h2 : IsBytes p.2) : IsBytes q.1 ∧ IsBytes q.2 := by
  obtain ⟨l, r⟩ := p
  simp only at hp h1 h2
  have hlen : l.length = (mixBytes r key i).length := by rw [length_mixBytes, hp]
  simp only [obfuscateRound, feistelRoundStateless_eq _ _ _ hk, xorInto_eq _ _ hlen,
    Option.bind_eq_bind, Option.some_bind, Option.pure_def, Option.some.injEq] at hq
  subst hq
  exact ⟨h2, isBytes_zipWith_xor _ _ h1 (isBytes_mixBytes _ _ _)⟩

theorem obfuscate_loop_bytes (key : List Nat) (hk : key ≠ []) (n : Nat)
    (p q : List Nat × List Nat) (hp : p.1.length = p.2.length)
    (hq : (List.range n).foldlM (obfuscateRound key) p = some q)
    (h1 : IsBytes p.1) (h2 : IsBytes p.2) : IsBytes q.1 ∧ IsBytes q.2 := by
  induction n generalizing q with
  | zero =>
    simp only [List.range_zero, List.foldlM_nil, Option.pure_def, Option.some.injEq] at hq
    subst hq; exact ⟨h1, h2⟩
  | succ n ih =>
    obtain ⟨q0, hq0, hl1, hl2, _⟩ := obfuscate_loop key hk n p hp
    rw [List.range_succ, List.foldlM_append, hq0] at hq
    simp only [Option.bind_eq_bind, Option.some_bind, List.foldlM_cons, List.foldlM_nil] at hq
    obtain ⟨b1, b2⟩ := ih q0 hq0
    cases hr : obfuscateRound key q0 n with
    | none => rw [hr] at hq; simp at hq
    | some q1 =>
      rw [hr] at hq
      simp only [Option.some_bind, Option.pure_def, Option.some.injEq] at hq
      subst hq
      exact obfuscateRound_bytes key hk q0 q1 (by omega) n hr b1 b2

theorem isBytes_padEven (b : List Nat) (hb : IsBytes b) : IsBytes (padEven b) := by
  unfold padEven
  split
  · exact hb
  · exact hb.append (by decide)

/-- What `ObfuscateBytes` returns on a non-empty buffer with a non-empty key:
two halves of equal positive length, from which `DeobfuscateBytes` recovers
the padded input, and which are bytes when the input is. -/
theorem ObfuscateBytes_spec (b key : List Nat) (rounds : Int) (hb : b ≠ []) (hk : key ≠ []) :
    ∃ q : List Nat × List Nat, ObfuscateBytes b key rounds = some (q.1 ++ q.2) ∧
      q.1.length = q.2.length ∧ 0 < q.1.length ∧
      DeobfuscateBytes (q.1 ++ q.2) key rounds = some (padEven b) ∧
      (IsBytes b → IsBytes (q.1 ++ q.2)) := by
  obtain ⟨hlen, happ, hpos⟩ := splitBytes_spec b
  obtain ⟨q, hq, h1, h2, hback⟩ := obfuscate_loop key hk rounds.toNat (splitBytes b) hlen
  have hb0 : b.length ≠ 0 := by simpa using hb
  have hq0 : (q.1 ++ q.2).length ≠ 0 := by
    have := hpos hb
    simp only [List.length_append]; omega
  refine ⟨q, ?_, by omega, by have := hpos hb; omega, ?_, fun hbytes => ?_⟩
  · simp only [ObfuscateBytes, hb0, if_false, hq, Option.bind_eq_bind, Option.some_bind,
      Option.pure_def]
  · simp only [DeobfuscateBytes, hq0, if_false, splitBytes_append q.1 q.2 (by omega), hback,
      Option.bind_eq_bind, Option.some_bind, Option.pure_def, happ]
  · have hpad := isBytes_padEven b hbytes
    rw [← happ] at hpad
    have hs1 : IsBytes (splitBytes b).1 := fun x hx => hpad x (List.mem_append_left _ hx)
    have hs2 : IsBytes (splitBytes b).2 := fun x hx => hpad x (List.mem_append_right _ hx)
    obtain ⟨b1, b2⟩ := obfuscate_loop_bytes key hk rounds.toNat _ q hlen hq hs1 hs2
    exact b1.append b2

/-- C2: for a non-empty buffer and a non-empty key, at every round count (in
particular at 1..10), `ObfuscateBytes` returns a buffer on which
`DeobfuscateBytes` with the same key and rounds returns the input itself when
its length is even, and the input followed by one zero byte when it is odd. -/
theorem DeobfuscateBytes_ObfuscateBytes (b key : List Nat) (rounds : Int)
    (hb : b ≠ []) (hk : key ≠ []) :
    (ObfuscateBytes b key rounds).bind (fun o => DeobfuscateBytes o key rounds) =
      some (if b.length % 2 = 0 then b else b ++ [0]) := by
  obtain ⟨q, hq, _, _, hback, _⟩ := ObfuscateBytes_spec b key rounds hb hk
  rw [hq, Option.some_bind, hback]
  rfl

/-- C2 at the three-byte buffer `[1, 2, 3]`, key `"ab"`, three rounds. -/
theorem DeobfuscateBytes_ObfuscateBytes_witness :
    (ObfuscateBytes [1, 2, 3] [97, 98] 3).bind (fun o => DeobfuscateBytes o [97, 98] 3) =
      some (if [1, 2, 3].length % 2 = 0 then [1, 2, 3] else [1, 2, 3] ++ [0]) :=
  DeobfuscateBytes_ObfuscateBytes [1, 2, 3] [97, 98] 3 (by decide) (by decide)

/-! ## Properties of the Base62 codec over byte strings -/

theorem base62Val_digitChar : ∀ d < 62, base62Val (digitChar d) = some d := by decide

theorem bigIntSetBytes_eq (data : List Nat) :
    bigIntSetBytes data = Nat.ofDigits 256 data.reverse := by
  unfold bigIntSetBytes
  induction data using List.reverseRecOn with
  | nil => simp
  | append_singleton l a ih =>
    rw [List.foldl_append, ih]
    simp [Nat.ofDigits_cons]
    ring

theorem bigIntBytesLoop_eq (fuel n : Nat) (acc : List Nat) (h : n ≤ fuel) :
    bigIntBytesLoop fuel n acc = (Nat.digits 256 n).reverse ++ acc := by
  induction fuel generalizing n acc with
  | zero =>
    have : n = 0 := by omega
    subst this; simp [bigIntBytesLoop]
  | succ fuel ih =>
    by_cases hn : n = 0
    · subst hn; simp [bigIntBytesLoop]
    · have hpos : 0 < n := Nat.pos_of_ne_zero hn
      have hdiv : n / 256 ≤ fuel := by
        have := Nat.div_lt_self hpos (by decide : 1 < 256)
        omega
      rw [bigIntBytesLoop, if_neg hn, ih _ _ hdiv, Nat.digits_def' (by decide) hpos]
      simp

theorem bigIntBytes_eq (n : Nat) : bigIntBytes n = (Nat.digits 256 n).reverse := by
  simp [bigIntBytes, bigIntBytesLoop_eq n n [] (le_refl n)]

theorem base62EncodeLoop_eq (fuel num : Nat) (result : List Nat) (h : num ≤ fuel) :
    base62EncodeLoop fuel num result =
      ((Nat.digits 62 num).reverse.map digitChar) ++ result := by
  induction fuel generalizing num result with
  | zero =>
    have : num = 0 := by omega
    subst this; simp [base62EncodeLoop]
  | succ fuel ih =>
    by_cases hn : num = 0
    · subst hn; simp [base62EncodeLoop]
    · have hpos : 0 < num := Nat.pos_of_ne_zero hn
      have hdiv : num / 62 ≤ fuel := by
        have := Nat.div_lt_self hpos (by decide : 1 < 62)
        omega
      rw [base62EncodeLoop, if_pos hpos, ih _ _ hdiv, Nat.digits_def' (by decide) hpos]
      simp [digitChar]

/-- The accumulation of `Base62Decode` on the characters of digits below 62. -/
theorem decode_fold_digitChars (ds : List Nat) (hds : ∀ d ∈ ds, d < 62) (acc : Nat) :
    (ds.map digitChar).foldlM (fun (num : Nat) c =>
      match base62Val c with
      | some idx => Except.ok (num * 62 + idx)
      | none => (Except.error "invalid Base62 character" : Except String Nat)) acc =
    Except.ok (ds.foldl (fun num d => num * 62 + d) acc) := by
  induction ds generalizing acc with
  | nil => rfl
  | cons d ds ih =>
    have hd : d < 62 := hds d (List.mem_cons_self _ _)
    simp only [List.map_cons, List.foldlM_cons, base62Val_digitChar d hd, List.foldl_cons]
    exact ih (fun x hx => hds x (List.mem_cons_of_mem _ hx)) _

theorem foldl_reverse_eq_ofDigits (b : Nat) (L : List Nat) :
    L.reverse.foldl (fun num d => num * b + d) 0 = Nat.ofDigits b L := by
  induction L with
  | nil => simp
  | cons d L ih =>
    simp only [List.reverse_cons, List.foldl_append, List.foldl_cons, List.foldl_nil, ih,
      Nat.ofDigits_cons]
    ring

/-- Decoding the digit string of a positive number gives back its bytes. -/
theorem Base62Decode_digits (n : Nat) :
    Base62Decode ((Nat.digits 62 n).reverse.map digitChar) = Except.ok (bigIntBytes n) := by
  have hds : ∀ d ∈ (Nat.digits 62 n).reverse, d < 62 := fun d hd =>
    Nat.digits_lt_base (by decide) (List.mem_reverse.mp hd)
  simp only [Base62Decode, decode_fold_digitChars _ hds 0, foldl_reverse_eq_ofDigits,
    Nat.ofDigits_digits]
  rfl

theorem Base62Encode_eq (b : List Nat) (h : bigIntSetBytes b ≠ 0) :
    Base62Encode b = (Nat.digits 62 (bigIntSetBytes b)).reverse.map digitChar := by
  simp [Base62Encode, h, base62EncodeLoop_eq _ _ [] (le_refl _)]

/-- Round trip on a buffer that is empty or starts with a non-zero byte. -/
theorem base62_roundtrip_of_head (b : List Nat) (hbytes : ∀ x ∈ b, x < 256)
    (hlead : b.head? ≠ some 0) :
    Base62Decode (Base62Encode b) = Except.ok b := by
  cases b with
  | nil => decide
  | cons x t =>
    have hx : x ≠ 0 := by simpa using hlead
    have hdig : Nat.digits 256 (bigIntSetBytes (x :: t)) = (x :: t).reverse := by
      rw [bigIntSetBytes_eq]
      refine Nat.digits_ofDigits 256 (by decide) _ (fun l hl => hbytes l (List.mem_reverse.mp hl)) ?_
      intro hne
      simpa [List.getLast_reverse] using hx
    have hn : bigIntSetBytes (x :: t) ≠ 0 := by
      intro h0
      rw [h0] at hdig
      simp at hdig
    rw [Base62Encode_eq _ hn, Base62Decode_digits, bigIntBytes_eq, hdig, List.reverse_reverse]

theorem Base62Encode_zero_cons (t : List Nat) : Base62Encode (0 :: t) = Base62Encode t := by
  simp [Base62Encode, bigIntSetBytes]

/-- Round trip on any buffer of bytes: the leading zero bytes are lost. -/
theorem base62_roundtrip_dropWhile (b : List Nat) (hbytes : ∀ x ∈ b, x < 256) :
    Base62Decode (Base62Encode b) = Except.ok (b.dropWhile (fun x => x = 0)) := by
  induction b with
  | nil => decide
  | cons x t ih =>
    by_cases hx : x = 0
    · subst hx
      rw [Base62Encode_zero_cons, ih (fun y hy => hbytes y (List.mem_cons_of_mem _ hy))]
      simp
    · rw [base62_roundtrip_of_head (x :: t) hbytes (by simpa using hx)]
      simp [List.dropWhile_cons, hx]

/-- C3: for a buffer of bytes that is empty or whose first byte is not zero,
`Base62Decode (Base62Encode b)` succeeds and returns exactly `b`. -/
theorem Base62Decode_Base62Encode (b : List Nat) (hbytes : ∀ x ∈ b, x < 256)
    (hlead : b.head? ≠ some 0) :
    Base62Decode (Base62Encode b) = Except.ok b :=
  base62_roundtrip_of_head b hbytes hlead

/-- C3 at the buffer `[1, 0, 255]`. -/
theorem Base62Decode_Base62Encode_witness :
    Base62Decode (Base62Encode [1, 0, 255]) = Except.ok [1, 0, 255] :=
  Base62Decode_Base62Encode [1, 0, 255] (by decide) (by decide)

/-! ## Properties of the secure token pipeline -/

theorem standInPrimitives_correct : standInPrimitives.Correct where
  compress_bytes := fun d hd => hd
  decompress_compress := fun d _ => rfl
  seal_bytes := by
    intro k n p hp x hx
    simp only [standInPrimitives, List.mem_append, List.mem_replicate] at hx
    rcases hx with hx | ⟨_, rfl⟩
    · exact hp x hx
    · exact Nat.mod_lt _ (by decide)
  open_seal := by
    intro k n p _
    simp [standInPrimitives]
  hmac_bytes := by
    intro k d x hx
    simp only [standInPrimitives, List.mem_append, List.mem_replicate, List.mem_cons,
      List.mem_singleton, List.not_mem_nil, or_false] at hx
    rcases hx with (rfl | rfl) | ⟨_, rfl⟩
    · exact Nat.mod_lt _ (by decide)
    · exact Nat.mod_lt _ (by decide)
    · decide
  hmac_length := by
    intro k d
    simp [standInPrimitives]

theorem aesKeySizeOK_of_length (secret : List Nat) (h : secret.length = 32) :
    aesKeySizeOK secret = true := by
  simp [aesKeySizeOK, h]

/-- The value of `Create`: the Base62 encoding of nonce, ciphertext and tag. -/
theorem Create_eq (P : CryptoPrimitives) (c : CryptoConfig) (hkey : c.AESSecret.length = 32)
    (s nonce : List Nat) :
    SecureURLService.Create P c s nonce =
      Except.ok (Base62Encode
        ((nonce ++ P.gcmSeal c.AESSecret nonce (P.zlibCompress s)) ++
          P.hmacSHA256 c.HMACSecret (nonce ++ P.gcmSeal c.AESSecret nonce (P.zlibCompress s)))) := by
  simp [SecureURLService.Create, Compress, EncryptAES, aesKeySizeOK_of_length _ hkey,
    GenerateHMAC]

/-- `Resolve` on a short code that decodes to `encrypted ++ tag` with a 32-byte
`tag`: the tag check, then decryption and decompression of `encrypted`. -/
theorem Resolve_of_decode (P : CryptoPrimitives) (c : CryptoConfig) (code e tag : List Nat)
    (hdec : Base62Decode code = Except.ok (e ++ tag)) (htag : tag.length = 32) :
    SecureURLService.Resolve P c code =
      if P.hmacSHA256 c.HMACSecret e = tag then
        match DecryptAES P e c.AESSecret with
        | Except.error _ => Except.error "decryption failed"
        | Except.ok decrypted =>
          match Decompress P decrypted with
          | Except.error _ => Except.error "corrupted data"
          | Except.ok original => Except.ok original
      else Except.error "tampered URL" := by
  have h1 : ¬ ((e ++ tag).length < 32) := by simp only [List.length_append]; omega
  have h2 : (e ++ tag).length - 32 = e.length := by simp only [List.length_append]; omega
  simp only [SecureURLService.Resolve, hdec, h1, if_false, h2, List.drop_left, List.take_left,
    VerifyHMAC, GenerateHMAC]
  by_cases h : P.hmacSHA256 c.HMACSecret e = tag <;> simp [h]

/-- With a nonce that does not start with a zero byte, `Resolve` returns the
string given to `Create`. -/
theorem Resolve_Create_of_nonzero_nonce (P : CryptoPrimitives) (hP : P.Correct)
    (c : CryptoConfig) (hkey : c.AESSecret.length = 32) (s nonce : List Nat)
    (hs : IsBytes s) (hn : IsBytes nonce) (hlen : nonce.length = 12)
    (hlead : nonce.head? ≠ some 0) :
    SecureURLService.Create P c s nonce >>= SecureURLService.Resolve P c = Except.ok s := by
  rw [Create_eq P c hkey]
  have hct : IsBytes (P.gcmSeal c.AESSecret nonce (P.zlibCompress s)) :=
    hP.seal_bytes _ _ _ (hP.compress_bytes s hs)
  have hbytes : IsBytes ((nonce ++ P.gcmSeal c.AESSecret nonce (P.zlibCompress s)) ++
      P.hmacSHA256 c.HMACSecret (nonce ++ P.gcmSeal c.AESSecret nonce (P.zlibCompress s))) :=
    (hn.append hct).append (hP.hmac_bytes _ _)
  have hhead : ((nonce ++ P.gcmSeal c.AESSecret nonce (P.zlibCompress s)) ++
      P.hmacSHA256 c.HMACSecret
        (nonce ++ P.gcmSeal c.AESSecret nonce (P.zlibCompress s))).head? ≠ some 0 := by
    cases nonce with
    | nil => simp at hlen
    | cons x t => simpa using hlead
  have hdec := base62_roundtrip_of_head _ hbytes hhead
  show SecureURLService.Resolve P c _ = _
  rw [Resolve_of_decode P c _ _ _ hdec (hP.hmac_length _ _), if_pos rfl]
  have h12 : ¬ ((nonce ++ P.gcmSeal c.AESSecret nonce (P.zlibCompress s)).length < 12) := by
    simp only [List.length_append]; omega
  simp only [DecryptAES, aesKeySizeOK_of_length _ hkey, if_true, h12, if_false,
    List.take_left' hlen, List.drop_left' hlen,
    hP.open_seal _ _ _ (hP.compress_bytes s hs), Decompress, hP.decompress_compress s hs]

/-- C4 (the failing case): when the nonce drawn by `EncryptAES` starts with a
zero byte followed by a non-zero byte, Base62 drops the zero, `Resolve` checks
the tag against a message that is one byte short, and, unless the two
messages happen to have the same HMAC tag, it rejects the code that `Create`
has just issued as "tampered URL" instead of returning the string. -/
theorem Resolve_Create_zero_nonce (P : CryptoPrimitives) (hP : P.Correct)
    (c : CryptoConfig) (hkey : c.AESSecret.length = 32) (s rest : List Nat) (n1 : Nat)
    (hs : IsBytes s) (hn : IsBytes (n1 :: rest)) (hn1 : n1 ≠ 0)
    (htag : P.hmacSHA256 c.HMACSecret
        (n1 :: rest ++ P.gcmSeal c.AESSecret (0 :: n1 :: rest) (P.zlibCompress s)) ≠
      P.hmacSHA256 c.HMACSecret
        (0 :: n1 :: rest ++ P.gcmSeal c.AESSecret (0 :: n1 :: rest) (P.zlibCompress s))) :
    SecureURLService.Create P c s (0 :: n1 :: rest) >>= SecureURLService.Resolve P c =
      Except.error "tampered URL" := by
  rw [Create_eq P c hkey]
  have hct : IsBytes (P.gcmSeal c.AESSecret (0 :: n1 :: rest) (P.zlibCompress s)) :=
    hP.seal_bytes _ _ _ (hP.compress_bytes s hs)
  have hbytes : IsBytes ((n1 :: rest ++ P.gcmSeal c.AESSecret (0 :: n1 :: rest) (P.zlibCompress s)) ++
      P.hmacSHA256 c.HMACSecret
        (0 :: n1 :: rest ++ P.gcmSeal c.AESSecret (0 :: n1 :: rest) (P.zlibCompress s))) :=
    (hn.append hct).append (hP.hmac_bytes _ _)
  have hdec := base62_roundtrip_of_head _ hbytes (by simpa using hn1)
  show SecureURLService.Resolve P c _ = _
  have hcons : ((0 :: n1 :: rest ++ P.gcmSeal c.AESSecret (0 :: n1 :: rest) (P.zlibCompress s)) ++
      P.hmacSHA256 c.HMACSecret
        (0 :: n1 :: rest ++ P.gcmSeal c.AESSecret (0 :: n1 :: rest) (P.zlibCompress s))) =
      0 :: ((n1 :: rest ++ P.gcmSeal c.AESSecret (0 :: n1 :: rest) (P.zlibCompress s)) ++
        P.hmacSHA256 c.HMACSecret
          (0 :: n1 :: rest ++ P.gcmSeal c.AESSecret (0 :: n1 :: rest) (P.zlibCompress s))) := rfl
  rw [hcons, Base62Encode_zero_cons,
    Resolve_of_decode P c _ _ _ hdec (hP.hmac_length _ _), if_neg htag]

/-- C4 at the string `"hi"` and the nonce `00 01 02 ... 0b`, with the stand-in
primitives. -/
theorem Resolve_Create_zero_nonce_witness :
    SecureURLService.Create standInPrimitives sampleConfig [104, 105]
        (0 :: 1 :: [2, 3, 4, 5, 6, 7, 8, 9, 10, 11]) >>=
      SecureURLService.Resolve standInPrimitives sampleConfig =
      Except.error "tampered URL" :=
  Resolve_Create_zero_nonce standInPrimitives standInPrimitives_correct sampleConfig
    (by decide) [104, 105] [2, 3, 4, 5, 6, 7, 8, 9, 10, 11] 1 (by decide) (by decide)
    (by decide) (by decide)

/-- The stateless pipeline when the obfuscated buffer does not start with a
zero byte: Base62 returns the buffer unchanged and `DeobfuscateBytes` recovers
the padded payload. -/
theorem stateless_roundtrip_of_nonzero_head (b key : List Nat) (rounds : Int)
    (hb : b ≠ []) (hk : key ≠ []) (hbytes : IsBytes b) (o : List Nat)
    (ho : ObfuscateBytes b key rounds = some o) (hhead : o.head? ≠ some 0) :
    Base62Decode (Base62Encode o) = Except.ok o ∧
      DeobfuscateBytes o key rounds = some (if b.length % 2 = 0 then b else b ++ [0]) := by
  obtain ⟨q, hq, _, _, hback, hob⟩ := ObfuscateBytes_spec b key rounds hb hk
  rw [hq, Option.some.injEq] at ho
  subst ho
  exact ⟨base62_roundtrip_of_head _ (hob hbytes) hhead, hback⟩

/-- C5 (evaluation at failing inputs): when the obfuscated buffer starts with
a zero byte, Base62 drops it and `DeobfuscateBytes` works on a shorter buffer.
With key `"a"` and one round the payload `[1, 0]` comes back as `[193, 96]`;
with key `"K"` and two rounds the 28-byte zlib stream of
`https://example.com/` is obfuscated to a buffer starting with 0, decoded to 27
bytes, and de-obfuscated to a buffer that is not the payload. -/
theorem stateless_pipeline_loses_leading_zero :
    ObfuscateBytes [1, 0] [97] 1 = some [0, 96] ∧
    Base62Decode (Base62Encode [0, 96]) = Except.ok [96] ∧
    DeobfuscateBytes [96] [97] 1 = some [193, 96] ∧
    (ObfuscateBytes [120, 156, 203, 40, 41, 41, 40, 182, 210, 215, 79, 173, 72, 204, 45, 200,
        73, 213, 75, 206, 207, 213, 7, 0, 79, 16, 7, 84] [75] 2).map List.head? = some (some 0) ∧
    ((ObfuscateBytes [120, 156, 203, 40, 41, 41, 40, 182, 210, 215, 79, 173, 72, 204, 45, 200,
        73, 213, 75, 206, 207, 213, 7, 0, 79, 16, 7, 84] [75] 2).bind fun o =>
      match Base62Decode (Base62Encode o) with
      | Except.ok d => DeobfuscateBytes d [75] 2
      | Except.error _ => none) =
      some [156, 203, 40, 41, 41, 40, 182, 210, 215, 79, 173, 72, 204, 153, 200, 73, 213, 75,
        206, 207, 213, 7, 0, 79, 16, 7, 84, 173] := by
  refine ⟨by decide, by decide, by decide, by decide, ?_⟩
  decide

/-! ## Properties of the identifier generator -/

theorem toUint64_of_nonneg (x : Int) (h0 : 0 ≤ x) (h1 : x < 2 ^ 64) :
    ((toUint64 x : Nat) : Int) = x := by
  unfold toUint64
  rw [Int.emod_eq_of_lt h0 h1]
  exact Int.toNat_of_nonneg h0

theorem wrapInt64_of_range (x : Int) (h0 : -2 ^ 63 ≤ x) (h1 : x < 2 ^ 63) : wrapInt64 x = x := by
  unfold wrapInt64
  rw [Int.emod_eq_of_lt (by omega) (by omega)]
  omega

/-- Without overflow and without overlap the composition is a sum. -/
theorem compose_nat (a n s : Nat) (ha : a < 2 ^ 46) (hn : n < 2 ^ 10) (hs : s < 2 ^ 8) :
    ((a <<< (nodeBits + sequenceBits)) % 2 ^ 64) ||| ((n <<< sequenceBits) % 2 ^ 64) ||| s =
      a * 2 ^ 18 + n * 2 ^ 8 + s := by
  simp only [nodeBits, sequenceBits, Nat.shiftLeft_eq]
  rw [Nat.mod_eq_of_lt (by omega), Nat.mod_eq_of_lt (by omega), Nat.or_assoc,
    Nat.mul_comm n, ← Nat.mul_add_lt_is_or hs n, Nat.mul_comm a,
    ← Nat.mul_add_lt_is_or (by omega : 2 ^ 8 * n + s < 2 ^ 18) a]
  omega

theorem composeID_eq (now node seq : Int) (hnow : 0 ≤ now ∧ now < 2 ^ 46)
    (hnode : 0 ≤ node ∧ node ≤ 1023) (hseq : 0 ≤ seq ∧ seq ≤ 255) :
    ((composeID now node seq : Nat) : Int) = now * 2 ^ 18 + node * 2 ^ 8 + seq := by
  have e1 := toUint64_of_nonneg now hnow.1 (by omega)
  have e2 := toUint64_of_nonneg node hnode.1 (by omega)
  have e3 := toUint64_of_nonneg seq hseq.1 (by omega)
  unfold composeID
  rw [compose_nat (toUint64 now) (toUint64 node) (toUint64 seq) (by omega) (by omega) (by omega)]
  push_cast
  rw [e1, e2, e3]

theorem nextIDIter_wait (g : IDGenerator) (now : Int) (h : now = g.lastTs)
    (hz : wrapInt64 (g.sequence + 1) % 256 = 0) :
    nextIDIter g now = (⟨g.lastTs, wrapInt64 (g.sequence + 1), g.nodeID⟩, none) := by
  simp [nextIDIter, h, maxSequence, sequenceBits, hz]

theorem nextIDIter_same (g : IDGenerator) (now : Int) (h : now = g.lastTs)
    (hz : wrapInt64 (g.sequence + 1) % 256 ≠ 0) :
    nextIDIter g now = (⟨g.lastTs, wrapInt64 (g.sequence + 1), g.nodeID⟩,
      some (composeID now g.nodeID (wrapInt64 (g.sequence + 1)))) := by
  simp [nextIDIter, h, maxSequence, sequenceBits, hz]

theorem nextIDIter_fresh (g : IDGenerator) (now : Int) (h : now ≠ g.lastTs) :
    nextIDIter g now = (⟨now, 0, g.nodeID⟩, some (composeID now g.nodeID 0)) := by
  simp [nextIDIter, h]

theorem AdvancesAfterWait_tail (g : IDGenerator) (now : Int) (rest : List Int)
    (h : AdvancesAfterWait g (now :: rest)) :
    AdvancesAfterWait (nextIDIter g now).1 rest := by
  cases rest with
  | nil => trivial
  | cons next rest => exact h.2

theorem AdvancesAfterWait_head (g : IDGenerator) (now : Int) (rest : List Int)
    (h : AdvancesAfterWait g (now :: rest)) (hw : (nextIDIter g now).2 = none) :
    ∀ r ∈ rest.head?, now < r := by
  cases rest with
  | nil => simp
  | cons next rest =>
    intro r hr
    simp only [List.head?_cons, Option.mem_def, Option.some.injEq] at hr
    subst hr
    exact h.1 hw

/-- Invariant form of the ordering of identifiers: from a state with node id
in range, sequence at most 256 (and exactly 256 only while waiting for a later
reading), and readings that are sorted, at least `lastTs` and below `2^46`,
the identifiers come out strictly increasing and above the key of the state. -/
theorem NextIDs_increasing_aux (node : Int) (hnode : 0 ≤ node ∧ node ≤ 1023)
    (clock : List Int) :
    ∀ g : IDGenerator, g.nodeID = node → 0 ≤ g.lastTs → 0 ≤ g.sequence → g.sequence ≤ 256 →
      (g.sequence = 256 → ∀ r ∈ clock.head?, g.lastTs < r) →
      (∀ r ∈ clock, g.lastTs ≤ r ∧ r < 2 ^ 46) → clock.Pairwise (fun a b => a ≤ b) →
      AdvancesAfterWait g clock →
      (NextIDs g clock).Pairwise (fun a b => a < b) ∧
        ∀ id ∈ NextIDs g clock, stateKey g < (id : Int) := by
  induction clock with
  | nil => intro g _ _ _ _ _ _ _ _; simp [NextIDs]
  | cons now rest ih =>
    intro g hg hts hs0 hs1 hwait hrange hsorted hadv
    obtain ⟨hnow_ge, hnow_lt⟩ := hrange now (List.mem_cons_self _ _)
    have hrest : ∀ r ∈ rest, now ≤ r ∧ r < 2 ^ 46 := fun r hr =>
      ⟨(List.pairwise_cons.mp hsorted).1 r hr, (hrange r (List.mem_cons_of_mem _ hr)).2⟩
    have hsorted' : rest.Pairwise (fun a b => a ≤ b) := (List.pairwise_cons.mp hsorted).2
    have htail := AdvancesAfterWait_tail g now rest hadv
    by_cases hsame : now = g.lastTs
    · have hs255 : g.sequence ≤ 255 := by
        by_contra hcon
        have h256 : g.sequence = 256 := by omega
        have := hwait h256 now (by simp)
        omega
      have hwrap : wrapInt64 (g.sequence + 1) = g.sequence + 1 :=
        wrapInt64_of_range _ (by omega) (by omega)
      by_cases hz : wrapInt64 (g.sequence + 1) % 256 = 0
      · have hiter := nextIDIter_wait g now hsame hz
        have h256 : g.sequence + 1 = 256 := by rw [hwrap] at hz; omega
        have hhead := AdvancesAfterWait_head g now rest hadv (by rw [hiter])
        rw [hiter] at htail
        have := ih ⟨g.lastTs, wrapInt64 (g.sequence + 1), g.nodeID⟩ hg hts
          (by simp only [hwrap]; omega) (by simp only [hwrap]; omega)
          (fun _ r hr => by have := hhead r hr; simp only; omega)
          (fun r hr => by have := hrest r hr; simp only; omega) hsorted' htail
        simp only [NextIDs, hiter]
        refine ⟨this.1, fun id hid => ?_⟩
        have h2 := this.2 id hid
        simp only [stateKey, hwrap] at h2 ⊢
        omega
      · have hiter := nextIDIter_same g now hsame hz
        have hle : g.sequence + 1 ≤ 255 := by rw [hwrap] at hz; omega
        rw [hiter] at htail
        have := ih ⟨g.lastTs, wrapInt64 (g.sequence + 1), g.nodeID⟩ hg hts
          (by simp only [hwrap]; omega) (by simp only [hwrap]; omega)
          (fun h256 => by simp only [hwrap] at h256; omega)
          (fun r hr => by have := hrest r hr; simp only; omega) hsorted' htail
        have hid : ((composeID now g.nodeID (wrapInt64 (g.sequence + 1)) : Nat) : Int) =
            stateKey ⟨g.lastTs, wrapInt64 (g.sequence + 1), g.nodeID⟩ := by
          rw [composeID_eq now g.nodeID _ ⟨by omega, hnow_lt⟩ (by rw [hg]; exact hnode)
            (by rw [hwrap]; omega)]
          simp only [stateKey, hsame]
        simp only [NextIDs, hiter, List.pairwise_cons, List.mem_cons, forall_eq_or_imp]
        refine ⟨⟨fun id' hid' => ?_, this.1⟩, ?_, fun id' hid' => ?_⟩
        · have h2 := this.2 id' hid'
          rw [← hid] at h2
          exact_mod_cast h2
        · rw [hid]; simp only [stateKey, hwrap]; omega
        · have h2 := this.2 id' hid'
          simp only [stateKey, hwrap] at h2 ⊢
          omega
    · have hiter := nextIDIter_fresh g now hsame
      have hlt : g.lastTs < now := by omega
      rw [hiter] at htail
      have := ih ⟨now, 0, g.nodeID⟩ hg (by simp only; omega) (by simp) (by simp)
        (fun h256 => by simp at h256)
        (fun r hr => by have := hrest r hr; simp only; omega) hsorted' htail
      have hid : ((composeID now g.nodeID 0 : Nat) : Int) = stateKey ⟨now, 0, g.nodeID⟩ := by
        rw [composeID_eq now g.nodeID 0 ⟨by omega, hnow_lt⟩ (by rw [hg]; exact hnode)
          (by omega)]
        simp only [stateKey]
      have hkey : stateKey g < stateKey ⟨now, 0, g.nodeID⟩ := by
        simp only [stateKey]; omega
      simp only [NextIDs, hiter, List.pairwise_cons, List.mem_cons, forall_eq_or_imp]
      refine ⟨⟨fun id' hid' => ?_, this.1⟩, ?_, fun id' hid' => ?_⟩
      · have h2 := this.2 id' hid'
        rw [← hid] at h2
        exact_mod_cast h2
      · rw [hid]; exact hkey
      · exact lt_trans hkey (this.2 id' hid')

/-- The calls of `NextID` and the list `NextIDs`: a call that returns yields
the head of the list and leaves the readings for the rest of it. -/
theorem NextIDs_of_NextID (clock : List Int) :
    ∀ (g g1 : IDGenerator) (id : Nat) (rest : List Int),
      NextID g clock = some (id, g1, rest) → NextIDs g clock = id :: NextIDs g1 rest := by
  induction clock with
  | nil => intro g g1 id rest h; simp [NextID] at h
  | cons now tl ih =>
    intro g g1 id rest h
    simp only [NextID] at h
    simp only [NextIDs]
    rcases hit : nextIDIter g now with ⟨g2, _ | id2⟩
    · rw [hit] at h
      exact ih g2 g1 id rest h
    · rw [hit] at h
      simp only [Option.some.injEq, Prod.mk.injEq] at h
      obtain ⟨rfl, rfl, rfl⟩ := h
      rfl

/-- Remark on the range of the readings: the identifier has room for a time
offset of 41 bits, and the shift `uint64(now) << 18` discards the bits of `now`
from bit 46 on. A reading of `2^46 + 1`, far beyond the lifetime of the epoch
and not a value the clock delivers, would repeat the identifier 262144 of the
reading 1. -/
theorem NextIDs_repeats_beyond_46_bits :
    NewIDGenerator 0 = some ⟨0, 0, 0⟩ ∧
    (∀ r ∈ [(1 : Int), 2 ^ 46 + 1], 0 ≤ r) ∧
    [(1 : Int), 2 ^ 46 + 1].Pairwise (fun a b => a ≤ b) ∧
    AdvancesAfterWait ⟨0, 0, 0⟩ [1, 2 ^ 46 + 1] ∧
    NextIDs ⟨0, 0, 0⟩ [1, 2 ^ 46 + 1] = [262144, 262144] ∧
    ¬ (NextIDs ⟨0, 0, 0⟩ [1, 2 ^ 46 + 1]).Nodup ∧
    ¬ (NextIDs ⟨0, 0, 0⟩ [1, 2 ^ 46 + 1]).Pairwise (fun a b => a < b) := by
  refine ⟨by decide, by decide, by decide, by decide, by decide, ?_, ?_⟩
  · rw [show NextIDs ⟨0, 0, 0⟩ [1, 2 ^ 46 + 1] = [262144, 262144] by decide]; decide
  · rw [show NextIDs ⟨0, 0, 0⟩ [1, 2 ^ 46 + 1] = [262144, 262144] by decide]; decide

/-- The ordering of identifiers from a fresh generator, for readings below
`2^46` (the range in which `uint64(now) << 18` loses no bit). -/
theorem NextIDs_increasing_of_fresh (nodeID : Int) (g : IDGenerator)
    (hg : NewIDGenerator nodeID = some g) (clock : List Int)
    (hnonneg : ∀ r ∈ clock, 0 ≤ r) (hbound : ∀ r ∈ clock, r < 2 ^ 46)
    (hmono : clock.Pairwise (fun a b => a ≤ b)) (hadv : AdvancesAfterWait g clock) :
    (NextIDs g clock).Pairwise (fun a b => a < b) ∧ (NextIDs g clock).Nodup := by
  unfold NewIDGenerator at hg
  split at hg
  · simp at hg
  · next hrange =>
    simp only [Option.some.injEq] at hg
    subst hg
    have hnode : 0 ≤ nodeID ∧ nodeID ≤ 1023 := by
      simp only [maxNode, nodeBits] at hrange; omega
    have h := (NextIDs_increasing_aux nodeID hnode clock ⟨0, 0, nodeID⟩ rfl (le_refl _)
      (le_refl _) (by simp) (fun h256 => by simp at h256)
      (fun r hr => ⟨hnonneg r hr, hbound r hr⟩) hmono hadv).1
    exact ⟨h, h.imp (fun hab => Nat.ne_of_lt hab)⟩

/-- C7: for a generator made by `NewIDGenerator` and called sequentially, if
the clock readings are non-negative and non-decreasing, lie within the 41-bit
time offset of the identifier (the lifetime of the epoch), and the reading
taken after a sequence-exhaustion wait is strictly later than the one before
it, then the identifiers returned are strictly increasing in emission order
and pairwise distinct. -/
theorem NextIDs_strictly_increasing (nodeID : Int) (g : IDGenerator)
    (hg : NewIDGenerator nodeID = some g) (clock : List Int)
    (hnonneg : ∀ r ∈ clock, 0 ≤ r) (hbound : ∀ r ∈ clock, r < 2 ^ 41)
    (hmono : clock.Pairwise (fun a b => a ≤ b)) (hadv : AdvancesAfterWait g clock) :
    (NextIDs g clock).Pairwise (fun a b => a < b) ∧ (NextIDs g clock).Nodup :=
  NextIDs_increasing_of_fresh nodeID g hg clock hnonneg
    (fun r hr => lt_trans (hbound r hr) (by norm_num)) hmono hadv

set_option maxRecDepth 100000 in
/-- C7 at node id 5 and the readings 3 (257 times), 4, 4: the first
256 readings return identifiers with sequence 0 to 255, the 257th ends in the
wait, and the later reading 4 returns the next two identifiers. -/
theorem NextIDs_strictly_increasing_witness :
    (NextIDs ⟨0, 0, 5⟩ (List.replicate 257 3 ++ [4, 4])).Pairwise (fun a b => a < b) ∧
      (NextIDs ⟨0, 0, 5⟩ (List.replicate 257 3 ++ [4, 4])).Nodup :=
  NextIDs_strictly_increasing 5 ⟨0, 0, 5⟩ (by decide) (List.replicate 257 3 ++ [4, 4])
    (by decide) (by decide) (by decide) (by decide)

/-- An iteration that issues an identifier composes it from its reading, the
node id and the sequence field after the update. -/
theorem nextIDIter_id (g g1 : IDGenerator) (now : Int) (id : Nat)
    (h : nextIDIter g now = (g1, some id)) :
    id = composeID now g.nodeID g1.sequence := by
  by_cases hsame : now = g.lastTs
  · by_cases hz : wrapInt64 (g.sequence + 1) % 256 = 0
    · rw [nextIDIter_wait g now hsame hz] at h
      simp at h
    · rw [nextIDIter_same g now hsame hz] at h
      simp only [Prod.mk.injEq, Option.some.injEq] at h
      obtain ⟨rfl, rfl⟩ := h
      rfl
  · rw [nextIDIter_fresh g now hsame] at h
    simp only [Prod.mk.injEq, Option.some.injEq] at h
    obtain ⟨rfl, rfl⟩ := h
    rfl

theorem toUint64_eq_toNat (x : Int) (h0 : 0 ≤ x) (h1 : x < 2 ^ 64) : toUint64 x = x.toNat := by
  have := toUint64_of_nonneg x h0 h1
  omega

/-- C9: when an iteration of `NextID` issues an identifier at reading `now`
with `0 ≤ now < 2^41`, node id in `0..1023` and the sequence value `s` in
force (the field after the update) in `0..255`, `NextID` returns that
identifier, it equals `(now << 18) | (nodeID << 8) | s`, and the three fields
can be read back: `id >> 18 = now`, `(id >> 8) & 1023 = nodeID`,
`id & 255 = s`. -/
theorem NextID_bit_layout (g g1 : IDGenerator) (now : Int) (id : Nat)
    (hret : nextIDIter g now = (g1, some id))
    (hnode : 0 ≤ g.nodeID ∧ g.nodeID ≤ 1023) (hnow : 0 ≤ now ∧ now < 2 ^ 41)
    (hseq : 0 ≤ g1.sequence ∧ g1.sequence ≤ 255) :
    (∀ rest, NextID g (now :: rest) = some (id, g1, rest)) ∧
    id = (now.toNat <<< 18) ||| (g.nodeID.toNat <<< 8) ||| g1.sequence.toNat ∧
    id >>> 18 = now.toNat ∧ (id >>> 8) &&& 1023 = g.nodeID.toNat ∧
    id &&& 255 = g1.sequence.toNat := by
  have hid := nextIDIter_id g g1 now id hret
  have ha : now.toNat < 2 ^ 46 := by omega
  have hn : g.nodeID.toNat < 2 ^ 10 := by omega
  have hs : g1.sequence.toNat < 2 ^ 8 := by omega
  have hsum : id = now.toNat * 2 ^ 18 + g.nodeID.toNat * 2 ^ 8 + g1.sequence.toNat := by
    rw [hid, composeID, toUint64_eq_toNat now hnow.1 (by omega),
      toUint64_eq_toNat g.nodeID hnode.1 (by omega),
      toUint64_eq_toNat g1.sequence hseq.1 (by omega)]
    exact compose_nat _ _ _ ha hn hs
  have hor : (now.toNat <<< 18) ||| (g.nodeID.toNat <<< 8) ||| g1.sequence.toNat =
      now.toNat * 2 ^ 18 + g.nodeID.toNat * 2 ^ 8 + g1.sequence.toNat := by
    have := compose_nat _ _ _ ha hn hs
    simp only [nodeBits, sequenceBits, Nat.shiftLeft_eq] at this ⊢
    rw [Nat.mod_eq_of_lt (by omega), Nat.mod_eq_of_lt (by omega)] at this
    exact this
  have e1023 : (1023 : Nat) = 2 ^ 10 - 1 := by norm_num
  have e255 : (255 : Nat) = 2 ^ 8 - 1 := by norm_num
  refine ⟨fun rest => ?_, by rw [hor, hsum], ?_, ?_, ?_⟩
  · simp only [NextID, hret]
  · rw [Nat.shiftRight_eq_div_pow, hsum]; omega
  · rw [Nat.shiftRight_eq_div_pow, e1023, Nat.and_pow_two_sub_one_eq_mod, hsum]; omega
  · rw [e255, Nat.and_pow_two_sub_one_eq_mod, hsum]; omega

/-- C9 at the state `(lastTs, sequence, nodeID) = (7, 3, 5)` and the reading 7. -/
theorem NextID_bit_layout_witness :
    (∀ rest, NextID ⟨7, 3, 5⟩ (7 :: rest) = some (1836292, ⟨7, 4, 5⟩, rest)) ∧
    1836292 = ((7 : Int).toNat <<< 18) ||| ((5 : Int).toNat <<< 8) ||| (4 : Int).toNat ∧
    1836292 >>> 18 = (7 : Int).toNat ∧ (1836292 >>> 8) &&& 1023 = (5 : Int).toNat ∧
    1836292 &&& 255 = (4 : Int).toNat :=
  NextID_bit_layout ⟨7, 3, 5⟩ ⟨7, 4, 5⟩ 7 1836292 (by decide) (by decide) (by decide)
    (by decide)

/-- C10: in one iteration of `NextID`, when the reading equals `lastTs` the
sequence becomes the old sequence plus one (in `int64` arithmetic) and
`lastTs` is kept; if the incremented sequence is 0 modulo 256 no identifier is
issued for that reading and `NextID` goes on with the next reading, otherwise
an identifier is issued. When the reading differs from `lastTs` the sequence
is set to 0, `lastTs` to the reading, and an identifier is issued. -/
theorem nextIDIter_cases (g : IDGenerator) (now : Int) :
    (now = g.lastTs →
      (nextIDIter g now).1 = ⟨g.lastTs, wrapInt64 (g.sequence + 1), g.nodeID⟩ ∧
      (-2 ^ 63 ≤ g.sequence → g.sequence < 2 ^ 63 - 1 →
        (nextIDIter g now).1.sequence = g.sequence + 1) ∧
      (wrapInt64 (g.sequence + 1) % 256 = 0 →
        (nextIDIter g now).2 = none ∧
        ∀ rest, NextID g (now :: rest) = NextID (nextIDIter g now).1 rest) ∧
      (wrapInt64 (g.sequence + 1) % 256 ≠ 0 → ∃ id, (nextIDIter g now).2 = some id)) ∧
    (now ≠ g.lastTs →
      (nextIDIter g now).1 = ⟨now, 0, g.nodeID⟩ ∧ ∃ id, (nextIDIter g now).2 = some id) := by
  refine ⟨fun hsame => ⟨?_, ?_, ?_, ?_⟩, fun hdiff => ?_⟩
  · by_cases hz : wrapInt64 (g.sequence + 1) % 256 = 0
    · rw [nextIDIter_wait g now hsame hz]
    · rw [nextIDIter_same g now hsame hz]
  · intro h0 h1
    have hw := wrapInt64_of_range (g.sequence + 1) (by omega) (by omega)
    by_cases hz : wrapInt64 (g.sequence + 1) % 256 = 0
    · rw [nextIDIter_wait g now hsame hz]; exact hw
    · rw [nextIDIter_same g now hsame hz]; exact hw
  · intro hz
    refine ⟨by rw [nextIDIter_wait g now hsame hz], fun rest => ?_⟩
    simp only [NextID, nextIDIter_wait g now hsame hz]
  · intro hz
    exact ⟨_, by rw [nextIDIter_same g now hsame hz]⟩
  · rw [nextIDIter_fresh g now hdiff]
    exact ⟨rfl, _, rfl⟩

/-- C10 at the state `(lastTs, sequence, nodeID) = (7, 255, 5)` and the readings
7 (equal, the increment reaches 256) and 8 (different). -/
theorem nextIDIter_cases_witness :
    ((nextIDIter ⟨7, 255, 5⟩ 7).1 = ⟨7, wrapInt64 (255 + 1), 5⟩ ∧
      (nextIDIter ⟨7, 255, 5⟩ 7).1.sequence = 255 + 1 ∧
      (nextIDIter ⟨7, 255, 5⟩ 7).2 = none ∧
      NextID ⟨7, 255, 5⟩ [7, 8] = NextID (nextIDIter ⟨7, 255, 5⟩ 7).1 [8]) ∧
    ((nextIDIter ⟨7, 255, 5⟩ 8).1 = ⟨8, 0, 5⟩ ∧ ∃ id, (nextIDIter ⟨7, 255, 5⟩ 8).2 = some id) :=
  ⟨⟨((nextIDIter_cases ⟨7, 255, 5⟩ 7).1 rfl).1,
    ((nextIDIter_cases ⟨7, 255, 5⟩ 7).1 rfl).2.1 (by decide) (by decide),
    (((nextIDIter_cases ⟨7, 255, 5⟩ 7).1 rfl).2.2.1 (by decide)).1,
    (((nextIDIter_cases ⟨7, 255, 5⟩ 7).1 rfl).2.2.1 (by decide)).2 [8]⟩,
   (nextIDIter_cases ⟨7, 255, 5⟩ 8).2 (by decide)⟩

/-- The interleaving model restricted to one caller is the sequential
iteration `nextIDIter`. -/
theorem soloIteration_eq (g : IDGenerator) (now : Int) :
    soloIteration g now = nextIDIter g now := by
  by_cases hsame : now = g.lastTs
  · by_cases hz : wrapInt64 (g.sequence + 1) % 256 = 0
    · rw [nextIDIter_wait g now hsame hz]
      simp [soloIteration, workerStep, hsame, maxSequence, sequenceBits, hz]
    · rw [nextIDIter_same g now hsame hz]
      simp [soloIteration, workerStep, hsame, maxSequence, sequenceBits, hz]
  · rw [nextIDIter_fresh g now hsame]
    simp [soloIteration, workerStep, hsame]

/-- C8 (evaluation at a failing interleaving): two callers of `NextID` on a
fresh generator with node id 1 both read the clock value 5 and both load
`lastTs = 0` before either stores; each then stores sequence 0 and timestamp
5 and composes its identifier from sequence 0. Both calls return 1310976. -/
theorem concurrent_NextID_returns_duplicate :
    NewIDGenerator 1 = some ⟨0, 0, 1⟩ ∧
    Shared.run ⟨⟨0, 0, 1⟩, [WorkerPC.atClock, WorkerPC.atClock], []⟩
        [(0, 5), (0, 5), (1, 5), (1, 5), (0, 5), (0, 5), (0, 5), (1, 5), (1, 5), (1, 5)] =
      ⟨⟨5, 0, 1⟩, [WorkerPC.returned 1310976, WorkerPC.returned 1310976],
        [1310976, 1310976]⟩ ∧
    ¬ (Shared.run ⟨⟨0, 0, 1⟩, [WorkerPC.atClock, WorkerPC.atClock], []⟩
        [(0, 5), (0, 5), (1, 5), (1, 5), (0, 5), (0, 5), (0, 5), (1, 5), (1, 5),
          (1, 5)]).emitted.Nodup := by
  refine ⟨by decide, by decide, by decide⟩

/-! ## Construction of the generator -/

/-- The constant expressions of the source, evaluated on the integers:
`-1 ^ (-1 << nodeBits)` is `maxNode` and `-1 ^ (-1 << sequenceBits)` is
`maxSequence`. -/
theorem maxNode_maxSequence_expr :
    Int.xor (-1) ((-1 : Int) <<< (nodeBits : Int)) = maxNode ∧
    Int.xor (-1) ((-1 : Int) <<< (sequenceBits : Int)) = maxSequence ∧
    maxNode = 1023 ∧ maxSequence = 255 := by
  decide

/-- C11: `NewIDGenerator nodeID` panics exactly when `nodeID < 0` or
`nodeID > 1023`, and for every `nodeID` in `0..1023` it returns the generator
with that node id, last timestamp 0 and sequence 0. -/
theorem NewIDGenerator_spec (nodeID : Int) :
    (NewIDGenerator nodeID = none ↔ nodeID < 0 ∨ nodeID > 1023) ∧
    (0 ≤ nodeID → nodeID ≤ 1023 → NewIDGenerator nodeID = some ⟨0, 0, nodeID⟩) := by
  have hmax : maxNode = 1023 := by decide
  constructor
  · unfold NewIDGenerator
    rw [hmax]
    constructor
    · intro h
      split at h
      · omega
      · simp at h
    · intro h
      rw [if_pos (by omega)]
  · intro h0 h1
    unfold NewIDGenerator
    rw [hmax, if_neg (by omega)]

/-- C11 at the node ids 0 and 1023 (accepted) and -1 and 1024 (panic). -/
theorem NewIDGenerator_spec_witness :
    NewIDGenerator 0 = some ⟨0, 0, 0⟩ ∧ NewIDGenerator 1023 = some ⟨0, 0, 1023⟩ ∧
    NewIDGenerator (-1) = none ∧ NewIDGenerator 1024 = none :=
  ⟨(NewIDGenerator_spec 0).2 (by decide) (by decide),
   (NewIDGenerator_spec 1023).2 (by decide) (by decide),
   (NewIDGenerator_spec (-1)).1.mpr (Or.inl (by decide)),
   (NewIDGenerator_spec 1024).1.mpr (Or.inr (by decide))⟩

/-! ## The Base62 codec against its reference notions -/

theorem base62Alphabet_lt : ∀ x ∈ base62Alphabet, x < 123 := by decide

theorem base62Val_spec_small :
    ∀ c < 123, base62Val c =
      if c ∈ base62Alphabet then some (base62Index c) else none := by
  decide

/-- The `switch` of the decoders is the lookup in the alphabet. -/
theorem base62Val_spec (c : Nat) :
    base62Val c = if c ∈ base62Alphabet then some (base62Index c) else none := by
  by_cases h : c < 123
  · exact base62Val_spec_small c h
  · have hnot : c ∉ base62Alphabet := fun hm => h (base62Alphabet_lt c hm)
    rw [if_neg hnot]
    have h1 : ¬ ('0'.toNat ≤ c ∧ c ≤ '9'.toNat) := by
      have : '9'.toNat = 57 := by decide
      omega
    have h2 : ¬ ('a'.toNat ≤ c ∧ c ≤ 'z'.toNat) := by
      have : 'z'.toNat = 122 := by decide
      omega
    have h3 : ¬ ('A'.toNat ≤ c ∧ c ≤ 'Z'.toNat) := by
      have : 'Z'.toNat = 90 := by decide
      omega
    simp only [base62Val, h1, h2, h3, if_false]

theorem base62Index_lt (c : Nat) (h : c ∈ base62Alphabet) : base62Index c < 62 := by
  have : base62Alphabet.length = 62 := by decide
  rw [← this]
  exact List.indexOf_lt_length.mpr h

theorem base62Index_digitChar : ∀ d < 62, base62Index (digitChar d) = d ∧
    digitChar d ∈ base62Alphabet := by
  decide

/-- The accumulation loop of `Base62Decode` from `acc`: the value of the
digits when every character is in the alphabet, the error otherwise. -/
theorem decode_fold_spec (s : List Nat) (acc : Nat) :
    s.foldlM (fun (num : Nat) c =>
      match base62Val c with
      | some idx => Except.ok (num * 62 + idx)
      | none => (Except.error "invalid Base62 character" : Except String Nat)) acc =
    if ∀ c ∈ s, c ∈ base62Alphabet then
      Except.ok (s.foldl (fun num c => num * 62 + base62Index c) acc)
    else Except.error "invalid Base62 character" := by
  induction s generalizing acc with
  | nil => rfl
  | cons a t ih =>
    simp only [List.foldlM_cons, base62Val_spec a]
    by_cases ha : a ∈ base62Alphabet
    · simp only [ha, if_true, List.foldl_cons, List.mem_cons, forall_eq_or_imp, true_and]
      exact ih _
    · simp only [ha, if_false, List.mem_cons, forall_eq_or_imp, false_and]
      rfl

theorem foldl_index_eq_base62Value (s : List Nat) :
    s.foldl (fun num c => num * 62 + base62Index c) 0 = base62Value s := by
  have h := foldl_reverse_eq_ofDigits 62 (s.reverse.map base62Index)
  rw [← List.map_reverse, List.reverse_reverse, List.foldl_map] at h
  exact h

/-- `Base62Decode` in terms of the reference notions. -/
theorem Base62Decode_eq (s : List Nat) :
    Base62Decode s =
      if ∀ c ∈ s, c ∈ base62Alphabet then Except.ok (bigEndianBytes (base62Value s))
      else Except.error "invalid Base62 character" := by
  unfold Base62Decode
  rw [decode_fold_spec s 0]
  by_cases h : ∀ c ∈ s, c ∈ base62Alphabet
  · rw [if_pos h, if_pos h, foldl_index_eq_base62Value, bigEndianBytes, ← bigIntBytes_eq]
    rfl
  · rw [if_neg h, if_neg h]
    rfl

/-- C13: `Base62Decode s` returns an error exactly when `s` contains a byte
outside `0-9`, `a-z`, `A-Z`; on every string over the alphabet, the empty
string included, it succeeds and returns the big-endian bytes, without leading
zero bytes, of the base-62 value of `s` in the digit order `0-9`, `a-z`,
`A-Z`. -/
theorem Base62Decode_spec (s : List Nat) :
    ((∃ e, Base62Decode s = Except.error e) ↔ ∃ c ∈ s, c ∉ base62Alphabet) ∧
    ((∀ c ∈ s, c ∈ base62Alphabet) →
      Base62Decode s = Except.ok (bigEndianBytes (base62Value s))) := by
  rw [Base62Decode_eq]
  by_cases h : ∀ c ∈ s, c ∈ base62Alphabet
  · rw [if_pos h]
    refine ⟨⟨?_, ?_⟩, fun _ => rfl⟩
    · rintro ⟨e, he⟩; cases he
    · rintro ⟨c, hc, hn⟩; exact absurd (h c hc) hn
  · rw [if_neg h]
    refine ⟨⟨fun _ => ?_, fun _ => ⟨_, rfl⟩⟩, fun h2 => absurd h2 h⟩
    push_neg at h
    exact h

/-- C13 at the strings `"1y"` (decodes to the byte 96), the empty string
(decodes to no bytes) and `"0!"` (rejected). -/
theorem Base62Decode_spec_witness :
    Base62Decode [49, 121] = Except.ok (bigEndianBytes (base62Value [49, 121])) ∧
    Base62Decode [] = Except.ok (bigEndianBytes (base62Value [])) ∧
    (∃ e, Base62Decode [48, 33] = Except.error e) :=
  ⟨(Base62Decode_spec [49, 121]).2 (by decide),
   (Base62Decode_spec []).2 (by decide),
   (Base62Decode_spec [48, 33]).1.mpr ⟨33, by decide, by decide⟩⟩

theorem bigIntSetBytes_zeros (b : List Nat) (h : ∀ x ∈ b, x = 0) : bigIntSetBytes b = 0 := by
  unfold bigIntSetBytes
  induction b with
  | nil => rfl
  | cons x t ih =>
    have hx : x = 0 := h x (List.mem_cons_self _ _)
    subst hx
    simpa using ih (fun y hy => h y (List.mem_cons_of_mem _ hy))

/-- C14: for every buffer that is empty or consists only of zero bytes,
`Base62Encode` returns the one-character string `"0"`. -/
theorem Base62Encode_zeros (b : List Nat) (h : ∀ x ∈ b, x = 0) :
    Base62Encode b = ['0'.toNat] := by
  have h0 : bigIntSetBytes b = 0 := bigIntSetBytes_zeros b h
  unfold Base62Encode
  rw [h0]
  rfl

/-- C14 at the empty buffer and at three zero bytes. -/
theorem Base62Encode_zeros_witness :
    Base62Encode [] = ['0'.toNat] ∧ Base62Encode [0, 0, 0] = ['0'.toNat] :=
  ⟨Base62Encode_zeros [] (by decide), Base62Encode_zeros [0, 0, 0] (by decide)⟩

theorem Base62Encode_replicate_zero (k : Nat) (b : List Nat) :
    Base62Encode (List.replicate k 0 ++ b) = Base62Encode b := by
  induction k with
  | zero => simp
  | succ k ih => rw [List.replicate_succ, List.cons_append, Base62Encode_zero_cons, ih]

/-- C15: for every byte buffer `b`, `Base62Decode (Base62Encode b)` succeeds
and equals `b` without its leading zero bytes; and putting zero bytes in front
of a buffer does not change its encoding. -/
theorem Base62Decode_Base62Encode_dropWhile (b : List Nat) (hbytes : IsBytes b) :
    Base62Decode (Base62Encode b) = Except.ok (b.dropWhile (fun x => x = 0)) ∧
    ∀ k, Base62Encode (List.replicate k 0 ++ b) = Base62Encode b :=
  ⟨base62_roundtrip_dropWhile b hbytes, fun k => Base62Encode_replicate_zero k b⟩

/-- C15 at the buffer `00 00 07 00`. -/
theorem Base62Decode_Base62Encode_dropWhile_witness :
    Base62Decode (Base62Encode [0, 0, 7, 0]) =
        Except.ok ([0, 0, 7, 0].dropWhile (fun x => x = 0)) ∧
    ∀ k, Base62Encode (List.replicate k 0 ++ [0, 0, 7, 0]) = Base62Encode [0, 0, 7, 0] :=
  Base62Decode_Base62Encode_dropWhile [0, 0, 7, 0] (by decide)

theorem bigIntSetBytes_eq_zero (b : List Nat) (h : bigIntSetBytes b = 0) : ∀ x ∈ b, x = 0 := by
  unfold bigIntSetBytes at h
  induction b using List.reverseRecOn with
  | nil => intro x hx; simp at hx
  | append_singleton l a ih =>
    rw [List.foldl_append] at h
    simp only [List.foldl_cons, List.foldl_nil] at h
    have ha : a = 0 := by omega
    have hl : List.foldl (fun acc b => acc * 256 + b) 0 l = 0 := by omega
    intro x hx
    rcases List.mem_append.mp hx with hx | hx
    · exact ih hl x hx
    · simp only [List.mem_singleton] at hx
      rw [hx, ha]

theorem digitChar_ne_zero_char : ∀ d < 62, d ≠ 0 → digitChar d ≠ '0'.toNat := by decide

theorem map_index_digitChar (ds : List Nat) (h : ∀ d ∈ ds, d < 62) :
    ds.map (fun d => base62Index (digitChar d)) = ds := by
  induction ds with
  | nil => rfl
  | cons d t ih =>
    simp only [List.map_cons, List.cons.injEq]
    exact ⟨(base62Index_digitChar d (h d (List.mem_cons_self _ _))).1,
      ih (fun x hx => h x (List.mem_cons_of_mem _ hx))⟩

/-- `Base62Encode` on a buffer that is not all zeros, in terms of the
reference notions. -/
theorem Base62Encode_nonzero (b : List Nat) (hnz : ∃ x ∈ b, x ≠ 0) :
    (∀ c ∈ Base62Encode b, c ∈ base62Alphabet) ∧
    base62Value (Base62Encode b) = bigEndianValue b ∧
    Base62Encode b ≠ [] ∧ (Base62Encode b).head? ≠ some '0'.toNat := by
  have hn : bigIntSetBytes b ≠ 0 := by
    intro h0
    obtain ⟨x, hx, hx0⟩ := hnz
    exact hx0 (bigIntSetBytes_eq_zero b h0 x hx)
  have hlt : ∀ d ∈ Nat.digits 62 (bigIntSetBytes b), d < 62 := fun d hd =>
    Nat.digits_lt_base (by decide) hd
  have hne : Nat.digits 62 (bigIntSetBytes b) ≠ [] := Nat.digits_ne_nil_iff_ne_zero.mpr hn
  rw [Base62Encode_eq b hn]
  refine ⟨?_, ?_, ?_, ?_⟩
  · intro c hc
    simp only [List.mem_map, List.mem_reverse] at hc
    obtain ⟨d, hd, rfl⟩ := hc
    exact (base62Index_digitChar d (hlt d hd)).2
  · rw [base62Value, ← List.map_reverse, List.reverse_reverse, List.map_map]
    have : (base62Index ∘ digitChar) = fun d => base62Index (digitChar d) := rfl
    rw [this, map_index_digitChar _ hlt, Nat.ofDigits_digits, bigEndianValue, bigIntSetBytes_eq]
  · simpa using hne
  · rw [List.head?_map, List.head?_reverse, List.getLast?_eq_getLast _ hne]
    simp only [Option.map_some', ne_eq, Option.some.injEq]
    exact digitChar_ne_zero_char _ (hlt _ (List.getLast_mem hne))
      (Nat.getLast_digit_ne_zero 62 hn)

/-- C16: for every buffer `b` that is not all zeros, `Base62Encode b` is a
non-empty string over the alphabet `0-9`, `a-z`, `A-Z` whose base-62 value,
read most significant digit first in that digit order, is `b` read as a
big-endian unsigned integer, and its first character is not `'0'`. -/
theorem Base62Encode_spec (b : List Nat) (hnz : ∃ x ∈ b, x ≠ 0) :
    (∀ c ∈ Base62Encode b, c ∈ base62Alphabet) ∧
    base62Value (Base62Encode b) = bigEndianValue b ∧
    Base62Encode b ≠ [] ∧ (Base62Encode b).head? ≠ some '0'.toNat :=
  Base62Encode_nonzero b hnz

/-- C16 at the buffer `00 60` (the string `"1y"`). -/
theorem Base62Encode_spec_witness :
    (∀ c ∈ Base62Encode [0, 96], c ∈ base62Alphabet) ∧
    base62Value (Base62Encode [0, 96]) = bigEndianValue [0, 96] ∧
    Base62Encode [0, 96] ≠ [] ∧ (Base62Encode [0, 96]).head? ≠ some '0'.toNat :=
  Base62Encode_spec [0, 96] ⟨96, by decide, by decide⟩

/-! ## Tenant key -/

/-- Published values of 32-bit FNV-1a: the empty input, `"a"` and
`"foobar"`. -/
theorem fnv32a_known_values :
    fnv32a [] = 0x811c9dc5 ∧ fnv32a [97] = 0xe40c292c ∧
    fnv32a [102, 111, 111, 98, 97, 114] = 0xbf9cf968 := by
  decide

theorem fnv32aWrite_append (h : Nat) (a b : List Nat) :
    fnv32aWrite (fnv32aWrite h a) b = fnv32aWrite h (a ++ b) := by
  simp [fnv32aWrite, List.foldl_append]

theorem fnv32aWrite_lt (h : Nat) (data : List Nat) (hh : h < 2 ^ 32) :
    fnv32aWrite h data < 2 ^ 32 := by
  unfold fnv32aWrite
  induction data generalizing h with
  | nil => simpa using hh
  | cons b t ih =>
    simp only [List.foldl_cons]
    exact ih _ (Nat.mod_lt _ (by norm_num))

theorem activeFeistelKey_loaded (c : CryptoConfig) (hc : c.Loaded) :
    ∃ k, activeFeistelKey c = some k ∧ k ∈ c.FeistelKeys ∧ k < 2 ^ 32 ∧
      c.FeistelKeys[c.ActiveFeistelVersion.toNat]? = some k := by
  obtain ⟨_, hk, h0, h1, _⟩ := hc
  have hlt : c.ActiveFeistelVersion.toNat < c.FeistelKeys.length := by omega
  refine ⟨c.FeistelKeys[c.ActiveFeistelVersion.toNat], ?_, List.getElem_mem _, ?_, ?_⟩
  · simp only [activeFeistelKey, not_lt.mpr h0, if_false]
    exact List.getElem?_eq_getElem hlt
  · exact hk _ (List.getElem_mem _)
  · exact List.getElem?_eq_getElem hlt

/-- The key used by `EncodeID`: the tenant key, whichever branch is taken. -/
theorem EncodeID_eq (c : CryptoConfig) (hc : c.Loaded) (id : Nat) (tenantID : List Nat) :
    EncodeID c id tenantID =
      (TenantKey c tenantID).map fun key =>
        EncodeBase62 (ObfuscateIDWithKey id key c.FeistelRounds) := by
  obtain ⟨k, hk, _⟩ := activeFeistelKey_loaded c hc
  by_cases ht : tenantID = []
  · simp [EncodeID, TenantKey, ht, hk]
  · by_cases hs : c.MasterFeistelSecret = []
    · simp [EncodeID, TenantKey, ht, hs, hk]
    · simp [EncodeID, TenantKey, ht, hs, hk]

/-- The key used by `DecodeID`: the tenant key, whichever branch is taken. -/
theorem DecodeID_eq (c : CryptoConfig) (hc : c.Loaded) (encoded tenantID : List Nat) :
    DecodeID c encoded tenantID =
      match decodeBase62 encoded with
      | Except.error e => some (Except.error e)
      | Except.ok num =>
        (TenantKey c tenantID).map fun key =>
          Except.ok (toInt64 (decodeIDLoop (toUint64 num) key c.FeistelRounds)) := by
  obtain ⟨k, hk, _⟩ := activeFeistelKey_loaded c hc
  unfold DecodeID
  cases decodeBase62 encoded with
  | error e => rfl
  | ok num =>
    by_cases ht : tenantID = []
    · simp [TenantKey, ht, hk]
    · by_cases hs : c.MasterFeistelSecret = []
      · simp [TenantKey, ht, hs, hk]
      · simp [TenantKey, ht, hs, hk]

/-- C20: under a loaded configuration, `TenantKey tenantID` is the configured
active key `FeistelKeys[ActiveFeistelVersion]` when the tenant id or the master
secret is empty, and otherwise the 32-bit FNV-1a hash of the bytes of the
tenant id followed by the bytes of the master secret; it is a 32-bit value; and
`EncodeID` and `DecodeID` obfuscate and de-obfuscate with exactly this key. -/
theorem TenantKey_spec (c : CryptoConfig) (hc : c.Loaded) (tenantID : List Nat) :
    (tenantID = [] ∨ c.MasterFeistelSecret = [] →
      TenantKey c tenantID = c.FeistelKeys[c.ActiveFeistelVersion.toNat]?) ∧
    (tenantID ≠ [] → c.MasterFeistelSecret ≠ [] →
      TenantKey c tenantID = some (fnv32a (tenantID ++ c.MasterFeistelSecret))) ∧
    (∃ key, TenantKey c tenantID = some key ∧ key < 2 ^ 32 ∧
      (∀ id, EncodeID c id tenantID =
        some (EncodeBase62 (ObfuscateIDWithKey id key c.FeistelRounds))) ∧
      (∀ encoded num, decodeBase62 encoded = Except.ok num →
        DecodeID c encoded tenantID =
          some (Except.ok (toInt64 (decodeIDLoop (toUint64 num) key c.FeistelRounds))))) := by
  obtain ⟨k, hk, _, hklt, hget⟩ := activeFeistelKey_loaded c hc
  have hkey : ∃ key, TenantKey c tenantID = some key ∧ key < 2 ^ 32 := by
    by_cases h : tenantID = [] ∨ c.MasterFeistelSecret = []
    · exact ⟨k, by simp only [TenantKey, h, if_true, hk], hklt⟩
    · exact ⟨fnv32aWrite (fnv32aWrite 2166136261 tenantID) c.MasterFeistelSecret,
        by simp only [TenantKey, h, if_false],
        fnv32aWrite_lt _ _ (fnv32aWrite_lt 2166136261 tenantID (by norm_num))⟩
  refine ⟨fun h => ?_, fun ht hs => ?_, ?_⟩
  · simp only [TenantKey, h, if_true, hk, hget]
  · have h : ¬ (tenantID = [] ∨ c.MasterFeistelSecret = []) := by
      rintro (h | h)
      · exact ht h
      · exact hs h
    simp only [TenantKey, h, if_false, fnv32aWrite_append]
    rfl
  · obtain ⟨key, hkey1, hkey2⟩ := hkey
    refine ⟨key, hkey1, hkey2, fun id => ?_, fun encoded num hnum => ?_⟩
    · rw [EncodeID_eq c hc, hkey1]; rfl
    · rw [DecodeID_eq c hc, hnum]
      simp only [hkey1, Option.map_some']

/-- C20 at the configuration with keys 7 and 1234567 (the second active) and
master secret `"s3"`: the empty tenant id gets 1234567, the tenant id `"t1"`
gets FNV-1a of `"t1s3"`. -/
theorem TenantKey_spec_witness :
    TenantKey tenantConfig [] = tenantConfig.FeistelKeys[tenantConfig.ActiveFeistelVersion.toNat]? ∧
    TenantKey tenantConfig [116, 49] =
      some (fnv32a ([116, 49] ++ tenantConfig.MasterFeistelSecret)) ∧
    ∃ key, TenantKey tenantConfig [116, 49] = some key ∧ key < 2 ^ 32 ∧
      (∀ id, EncodeID tenantConfig id [116, 49] =
        some (EncodeBase62 (ObfuscateIDWithKey id key tenantConfig.FeistelRounds))) ∧
      (∀ encoded num, decodeBase62 encoded = Except.ok num →
        DecodeID tenantConfig encoded [116, 49] =
          some (Except.ok (toInt64
            (decodeIDLoop (toUint64 num) key tenantConfig.FeistelRounds)))) :=
  ⟨(TenantKey_spec tenantConfig (by simp [CryptoConfig.Loaded, tenantConfig]) []).1
      (Or.inl rfl),
   (TenantKey_spec tenantConfig (by simp [CryptoConfig.Loaded, tenantConfig]) [116, 49]).2.1
      (by decide) (by decide),
   (TenantKey_spec tenantConfig (by simp [CryptoConfig.Loaded, tenantConfig]) [116, 49]).2.2⟩

/-! ## Failure classification of `SecureURLService.Resolve` -/

/-- `Base62Decode` fails exactly on a string with a byte outside the
alphabet. -/
theorem Base62Decode_spec_aux (s : List Nat) :
    (∃ e, Base62Decode s = Except.error e) ↔ ∃ c ∈ s, c ∉ base62Alphabet := by
  rw [Base62Decode_eq]
  by_cases h : ∀ c ∈ s, c ∈ base62Alphabet
  · rw [if_pos h]
    constructor
    · rintro ⟨e, he⟩; cases he
    · rintro ⟨c, hc, hn⟩; exact absurd (h c hc) hn
  · rw [if_neg h]
    refine ⟨fun _ => ?_, fun _ => ⟨_, rfl⟩⟩
    push_neg at h
    exact h

/-- `Resolve` after a successful decode with at least 32 bytes. -/
theorem Resolve_of_decode_long (P : CryptoPrimitives) (c : CryptoConfig)
    (code data : List Nat) (hdec : Base62Decode code = Except.ok data)
    (hlen : 32 ≤ data.length) :
    SecureURLService.Resolve P c code =
      if P.hmacSHA256 c.HMACSecret (data.take (data.length - 32)) =
          data.drop (data.length - 32) then
        match DecryptAES P (data.take (data.length - 32)) c.AESSecret with
        | Except.error _ => Except.error "decryption failed"
        | Except.ok decrypted =>
          match Decompress P decrypted with
          | Except.error _ => Except.error "corrupted data"
          | Except.ok original => Except.ok original
      else Except.error "tampered URL" := by
  have h := Resolve_of_decode P c code (data.take (data.length - 32))
    (data.drop (data.length - 32)) (by rw [List.take_append_drop]; exact hdec)
    (by rw [List.length_drop]; omega)
  exact h

/-- The result of `Resolve` on every short code, by the stage that decides
it. -/
theorem Resolve_cases (P : CryptoPrimitives) (c : CryptoConfig) (code : List Nat) :
    ((∃ ch ∈ code, ch ∉ base62Alphabet) →
      SecureURLService.Resolve P c code = Except.error "invalid URL") ∧
    (∀ data, Base62Decode code = Except.ok data → data.length < 32 →
      SecureURLService.Resolve P c code = Except.error "invalid token") ∧
    (∀ data, Base62Decode code = Except.ok data → 32 ≤ data.length →
      P.hmacSHA256 c.HMACSecret (data.take (data.length - 32)) ≠
        data.drop (data.length - 32) →
      SecureURLService.Resolve P c code = Except.error "tampered URL") ∧
    (SecureURLService.Resolve P c code = Except.error "decryption failed" ∨
      SecureURLService.Resolve P c code = Except.error "corrupted data" →
      ∃ data, Base62Decode code = Except.ok data ∧ 32 ≤ data.length ∧
        P.hmacSHA256 c.HMACSecret (data.take (data.length - 32)) =
          data.drop (data.length - 32)) := by
  refine ⟨fun hbad => ?_, fun data hdec hlen => ?_, fun data hdec hlen hmac => ?_, fun hres => ?_⟩
  · obtain ⟨e, he⟩ := (Base62Decode_spec_aux code).mpr hbad
    simp only [SecureURLService.Resolve, he]
  · simp only [SecureURLService.Resolve, hdec, hlen, if_true]
  · rw [Resolve_of_decode_long P c code data hdec hlen, if_neg hmac]
  · cases hdec : Base62Decode code with
    | error e =>
      simp only [SecureURLService.Resolve, hdec] at hres
      rcases hres with h | h <;> exact absurd h (by decide)
    | ok data =>
      by_cases hlen : data.length < 32
      · simp only [SecureURLService.Resolve, hdec, hlen, if_true] at hres
        rcases hres with h | h <;> exact absurd h (by decide)
      · have hlen' : 32 ≤ data.length := by omega
        refine ⟨data, rfl, hlen', ?_⟩
        by_contra hmac
        rw [Resolve_of_decode_long P c code data hdec hlen', if_neg hmac] at hres
        rcases hres with h | h <;> exact absurd h (by decide)

/-- C17: `Resolve` classifies failures in this order. A short code with a
character outside the alphabet fails as "invalid URL"; a decoded payload
shorter than 32 bytes fails as "invalid token"; a payload of at least 32 bytes
whose last 32 bytes are not the HMAC tag of the bytes before them fails as
"tampered URL", whatever decryption would do with it, and that error differs
from the two errors before; and "decryption failed" or "corrupted data" is
returned only for a payload that decoded, has at least 32 bytes and carries
the right tag. -/
theorem Resolve_failure_order (P : CryptoPrimitives) (c : CryptoConfig) (code : List Nat) :
    ((∃ ch ∈ code, ch ∉ base62Alphabet) →
      SecureURLService.Resolve P c code = Except.error "invalid URL") ∧
    (∀ data, Base62Decode code = Except.ok data → data.length < 32 →
      SecureURLService.Resolve P c code = Except.error "invalid token") ∧
    (∀ data, Base62Decode code = Except.ok data → 32 ≤ data.length →
      P.hmacSHA256 c.HMACSecret (data.take (data.length - 32)) ≠
        data.drop (data.length - 32) →
      SecureURLService.Resolve P c code = Except.error "tampered URL") ∧
    (SecureURLService.Resolve P c code = Except.error "decryption failed" ∨
      SecureURLService.Resolve P c code = Except.error "corrupted data" →
      ∃ data, Base62Decode code = Except.ok data ∧ 32 ≤ data.length ∧
        P.hmacSHA256 c.HMACSecret (data.take (data.length - 32)) =
          data.drop (data.length - 32)) ∧
    ("tampered URL" ≠ "invalid URL" ∧ "tampered URL" ≠ "invalid token") := by
  obtain ⟨h1, h2, h3, h4⟩ := Resolve_cases P c code
  exact ⟨h1, h2, h3, h4, by decide, by decide⟩

/-- C17 with the stand-in primitives at the short codes `"0!"` (a character
outside the alphabet), `"1"` (one decoded byte) and the encoding of forty
bytes 01 (long enough, wrong tag). -/
theorem Resolve_failure_order_witness :
    SecureURLService.Resolve standInPrimitives sampleConfig [48, 33] =
      Except.error "invalid URL" ∧
    SecureURLService.Resolve standInPrimitives sampleConfig [49] =
      Except.error "invalid token" ∧
    SecureURLService.Resolve standInPrimitives sampleConfig
        (Base62Encode (List.replicate 40 1)) = Except.error "tampered URL" :=
  ⟨(Resolve_failure_order standInPrimitives sampleConfig [48, 33]).1
      ⟨33, by decide, by decide⟩,
   (Resolve_failure_order standInPrimitives sampleConfig [49]).2.1 [1]
      (by decide) (by decide),
   (Resolve_failure_order standInPrimitives sampleConfig
      (Base62Encode (List.replicate 40 1))).2.2.1 (List.replicate 40 1)
      (by decide) (by decide) (by decide)⟩

/-! ## Panics on the decode paths -/

/-- With a non-empty key a backward round on halves of equal length does not
panic and keeps the lengths. -/
theorem deobfuscateRound_some (key : List Nat) (hk : key ≠ []) (p : List Nat × List Nat)
    (hp : p.1.length = p.2.length) (i : Nat) :
    ∃ q, deobfuscateRound key p i = some q ∧ q.1.length = p.1.length ∧
      q.2.length = p.1.length := by
  obtain ⟨l, r⟩ := p
  simp only at hp
  have hlen : r.length = (mixBytes l key i).length := by rw [length_mixBytes, hp]
  refine ⟨(List.zipWith (fun a b => a ^^^ b) r (mixBytes l key i), l), ?_, ?_, rfl⟩
  · simp [deobfuscateRound, feistelRoundStateless_eq _ _ _ hk, xorInto_eq _ _ hlen]
  · simp [length_mixBytes, hp]

theorem deobfuscate_loop_some (key : List Nat) (hk : key ≠ []) (is : List Nat) :
    ∀ p : List Nat × List Nat, p.1.length = p.2.length →
      ∃ q, is.foldlM (deobfuscateRound key) p = some q ∧ q.1.length = q.2.length := by
  induction is with
  | nil => intro p hp; exact ⟨p, rfl, hp⟩
  | cons i t ih =>
    intro p hp
    obtain ⟨q, hq, h1, h2⟩ := deobfuscateRound_some key hk p hp i
    obtain ⟨q', hq', h'⟩ := ih q (by omega)
    exact ⟨q', by rw [List.foldlM_cons, hq]; exact hq', h'⟩

/-- With a non-empty key `DeobfuscateBytes` does not panic, on any buffer and
any round count. -/
theorem DeobfuscateBytes_some (data key : List Nat) (rounds : Int) (hk : key ≠ []) :
    ∃ o, DeobfuscateBytes data key rounds = some o := by
  unfold DeobfuscateBytes
  by_cases h0 : data.length = 0
  · exact ⟨data, by rw [if_pos h0]⟩
  · obtain ⟨q, hq, _⟩ := deobfuscate_loop_some key hk (List.range rounds.toNat).reverse
      (splitBytes data) (splitBytes_spec data).1
    exact ⟨q.1 ++ q.2, by rw [if_neg h0, hq]; rfl⟩

/-- With the empty key, a non-empty buffer and at least one round,
`DeobfuscateBytes` panics: the first round evaluates `i % len(key)` with
`len(key) = 0`. -/
theorem DeobfuscateBytes_empty_key (data : List Nat) (rounds : Int) (hd : data ≠ [])
    (hr : 1 ≤ rounds) : DeobfuscateBytes data [] rounds = none := by
  have h0 : data.length ≠ 0 := by simpa using hd
  obtain ⟨n, hn⟩ : ∃ n, rounds.toNat = n + 1 := ⟨rounds.toNat - 1, by omega⟩
  have hpos := (splitBytes_spec data).2.2 hd
  have hround : deobfuscateRound [] (splitBytes data) n = none := by
    simp only [deobfuscateRound, feistelRoundStateless, List.length_nil, and_true, hpos,
      if_true]
    rfl
  simp only [DeobfuscateBytes, h0, if_false, hn, List.range_succ, List.reverse_append,
    List.reverse_singleton, List.singleton_append, List.foldlM_cons, hround]
  rfl

/-- When `ResolveStateless` panics: exactly when no tenant id is given, the
master secret is unset, and the short code decodes to at least one byte. -/
theorem ResolveStateless_none_iff (P : CryptoPrimitives) (H : Collaborators)
    (c : CryptoConfig) (hc : c.Loaded) (shortCode tenantID : List Nat) :
    URLService.ResolveStateless P H c shortCode tenantID = none ↔
      tenantID = [] ∧ c.MasterFeistelSecret = [] ∧
        ∃ data, Base62Decode shortCode = Except.ok data ∧ data ≠ [] := by
  have hr : 1 ≤ c.FeistelRounds := hc.2.2.2.2.1
  unfold URLService.ResolveStateless
  cases hdec : Base62Decode shortCode with
  | error e => simp
  | ok data =>
    simp only []
    by_cases hkey : (if tenantID ≠ [] then tenantID else c.MasterFeistelSecret) = []
    · have ht : tenantID = [] := by
        by_contra ht
        rw [if_pos ht] at hkey
        exact ht hkey
      have hs : c.MasterFeistelSecret = [] := by
        rw [ht] at hkey; simpa using hkey
      rw [hkey]
      by_cases hd : data = []
      · subst hd
        have : DeobfuscateBytes [] [] c.FeistelRounds = some [] := by
          simp [DeobfuscateBytes]
        rw [this]
        constructor
        · intro h
          dsimp only at h
          cases hz : Decompress P [] with
          | error e => rw [hz] at h; simp at h
          | ok o => rw [hz] at h; simp at h
        · rintro ⟨_, _, d, hd1, hd2⟩
          simp only [Except.ok.injEq] at hd1
          exact absurd hd1.symm hd2
      · rw [DeobfuscateBytes_empty_key data c.FeistelRounds hd hr]
        simp only [true_iff]
        exact ⟨ht, hs, data, rfl, hd⟩
    · obtain ⟨o, ho⟩ := DeobfuscateBytes_some data _ c.FeistelRounds hkey
      rw [ho]
      constructor
      · intro h
        dsimp only at h
        cases hz : Decompress P o with
        | error e => rw [hz] at h; simp at h
        | ok o2 => rw [hz] at h; simp at h
      · rintro ⟨ht, hs, _⟩
        rw [ht, hs] at hkey
        simp at hkey

/-- Under a loaded configuration the tenant key exists. -/
theorem TenantKey_some (c : CryptoConfig) (hc : c.Loaded) (tenantID : List Nat) :
    ∃ key, TenantKey c tenantID = some key ∧ key < 2 ^ 32 := by
  obtain ⟨k, hk, _, hklt, _⟩ := activeFeistelKey_loaded c hc
  by_cases h : tenantID = [] ∨ c.MasterFeistelSecret = []
  · exact ⟨k, by simp only [TenantKey, h, if_true, hk], hklt⟩
  · exact ⟨fnv32aWrite (fnv32aWrite 2166136261 tenantID) c.MasterFeistelSecret,
      by simp only [TenantKey, h, if_false],
      fnv32aWrite_lt _ _ (fnv32aWrite_lt 2166136261 tenantID (by norm_num))⟩

/-- Under a loaded configuration `DecodeID` does not panic: the index of the
active key is in range. -/
theorem DecodeID_some (c : CryptoConfig) (hc : c.Loaded) (encoded tenantID : List Nat) :
    ∃ r, DecodeID c encoded tenantID = some r := by
  obtain ⟨key, hkey, _⟩ := (TenantKey_some c hc tenantID)
  rw [DecodeID_eq c hc]
  cases decodeBase62 encoded with
  | error e => exact ⟨_, rfl⟩
  | ok num =>
    exact ⟨Except.ok (toInt64 (decodeIDLoop (toUint64 num) key c.FeistelRounds)),
      by simp only [hkey, Option.map_some']⟩

/-- C12 (evaluation at the failing input): under the loaded configuration
`sampleConfig`, whose master secret is unset, the short code `"1"` with no
tenant id decodes to the byte 01, `DeobfuscateBytes` is called with the empty
key and panics on `i % len(key)`, and so does `ResolveStateless`, whatever the
library primitives and the tenant directory are. -/
theorem ResolveStateless_panics_without_key :
    sampleConfig.Loaded ∧ sampleConfig.MasterFeistelSecret = [] ∧
    Base62Decode [49] = Except.ok [1] ∧
    DeobfuscateBytes [1] [] sampleConfig.FeistelRounds = none ∧
    URLService.ResolveStateless standInPrimitives standInCollaborators sampleConfig [49] [] =
      none ∧
    ∀ P H, URLService.ResolveStateless P H sampleConfig [49] [] = none := by
  have hL : sampleConfig.Loaded := by simp [CryptoConfig.Loaded, sampleConfig]
  refine ⟨hL, rfl, by decide, by decide, ?_, fun P H => ?_⟩
  · exact (ResolveStateless_none_iff _ _ sampleConfig hL [49] []).mpr
      ⟨rfl, rfl, [1], by decide, by decide⟩
  · exact (ResolveStateless_none_iff P H sampleConfig hL [49] []).mpr
      ⟨rfl, rfl, [1], by decide, by decide⟩

/-! ## Keys that the byte mode cannot tell apart -/

/-- The mixing bytes depend on the key only through the key bytes at the
positions `j % len(key)` for `j` below the length of the half. -/
theorem mixBytes_congr (half A B : List Nat) (round : Nat)
    (h : ∀ j < half.length, A.getD (j % A.length) 0 = B.getD (j % B.length) 0) :
    mixBytes half A round = mixBytes half B round := by
  unfold mixBytes
  apply List.map_congr_left
  intro j hj
  rw [h j (List.mem_range.mp hj)]

/-- A forward round under key `A` is undone by the backward round under key
`B` when the two keys give the same mixing bytes. -/
theorem obfuscateRound_undone_by (A B : List Nat) (hA : A ≠ []) (hB : B ≠ [])
    (p : List Nat × List Nat) (hp : p.1.length = p.2.length) (i : Nat)
    (hmix : mixBytes p.2 A i = mixBytes p.2 B i) :
    ∃ q, obfuscateRound A p i = some q ∧ q.1.length = p.1.length ∧
      q.2.length = p.1.length ∧ deobfuscateRound B q i = some p := by
  obtain ⟨q, hq, h1, h2, hback⟩ := obfuscateRound_eq A hA p hp i
  refine ⟨q, hq, h1, h2, ?_⟩
  obtain ⟨l, r⟩ := p
  simp only at hp hmix
  have hlen : l.length = (mixBytes r A i).length := by rw [length_mixBytes, hp]
  simp only [obfuscateRound, feistelRoundStateless_eq _ _ _ hA, xorInto_eq _ _ hlen,
    Option.bind_eq_bind, Option.some_bind, Option.pure_def, Option.some.injEq] at hq
  subst hq
  simp only [deobfuscateRound, feistelRoundStateless_eq _ _ _ hA,
    feistelRoundStateless_eq _ _ _ hB, ← hmix] at hback ⊢
  exact hback

theorem obfuscate_loop_undone_by (A B : List Nat) (hA : A ≠ []) (hB : B ≠ []) (n : Nat)
    (p : List Nat × List Nat) (hp : p.1.length = p.2.length)
    (hAB : ∀ j < p.1.length, A.getD (j % A.length) 0 = B.getD (j % B.length) 0) :
    ∃ q, (List.range n).foldlM (obfuscateRound A) p = some q ∧
      q.1.length = p.1.length ∧ q.2.length = p.1.length ∧
      (List.range n).reverse.foldlM (deobfuscateRound B) q = some p := by
  induction n with
  | zero => exact ⟨p, by simp [hp]⟩
  | succ n ih =>
    obtain ⟨q, hq, h1, h2, hback⟩ := ih
    obtain ⟨q', hq', h1', h2', hback'⟩ := obfuscateRound_undone_by A B hA hB q (by omega) n
      (mixBytes_congr q.2 A B n (fun j hj => hAB j (by omega)))
    refine ⟨q', ?_, by omega, by omega, ?_⟩
    · simp [List.range_succ, List.foldlM_append, hq, hq']
    · rw [List.range_succ, List.reverse_append, List.reverse_singleton, List.singleton_append,
        List.foldlM_cons, hback']
      exact hback

/-- A buffer obfuscated under key `A` is recovered under key `B` whenever the
two keys agree at the positions `j % len(key)` for `j` below half the padded
length. -/
theorem deobfuscate_with_other_key (A B b : List Nat) (rounds : Int) (hb : b ≠ [])
    (hA : A ≠ []) (hB : B ≠ [])
    (hAB : ∀ j < (padEven b).length / 2,
      A.getD (j % A.length) 0 = B.getD (j % B.length) 0) :
    (ObfuscateBytes b A rounds).bind (fun o => DeobfuscateBytes o B rounds) =
      some (padEven b) := by
  obtain ⟨hlen, happ, hpos⟩ := splitBytes_spec b
  have hhalf : (splitBytes b).1.length = (padEven b).length / 2 := by
    rw [← happ, List.length_append]; omega
  obtain ⟨q, hq, h1, h2, hback⟩ := obfuscate_loop_undone_by A B hA hB rounds.toNat
    (splitBytes b) hlen (fun j hj => hAB j (by omega))
  have hb0 : b.length ≠ 0 := by simpa using hb
  have hq0 : (q.1 ++ q.2).length ≠ 0 := by
    have := hpos hb
    simp only [List.length_append]; omega
  simp only [ObfuscateBytes, hb0, if_false, hq, Option.bind_eq_bind, Option.some_bind,
    Option.pure_def, DeobfuscateBytes, hq0, splitBytes_append q.1 q.2 (by omega), hback, happ]

theorem getD_append_self_mod (key : List Nat) (j : Nat) :
    (key ++ key).getD (j % (key ++ key).length) 0 = key.getD (j % key.length) 0 := by
  by_cases hk : key.length = 0
  · have : key = [] := List.length_eq_zero.mp hk
    subst this; simp
  · have hpos : 0 < key.length := Nat.pos_of_ne_zero hk
    have hlen : (key ++ key).length = 2 * key.length := by
      simp only [List.length_append]; omega
    rw [hlen, List.getD_eq_getElem?_getD, List.getD_eq_getElem?_getD]
    have hm : j % (2 * key.length) < 2 * key.length := Nat.mod_lt _ (by omega)
    by_cases hlt : j % (2 * key.length) < key.length
    · rw [List.getElem?_append_left hlt]
      have : j % key.length = j % (2 * key.length) := by
        rw [← Nat.mod_mod_of_dvd j (Dvd.intro_left 2 rfl), Nat.mod_eq_of_lt hlt]
      rw [this]
    · rw [List.getElem?_append_right (by omega)]
      have : j % key.length = j % (2 * key.length) - key.length := by
        rw [← Nat.mod_mod_of_dvd j (Dvd.intro_left 2 rfl)]
        have h2 : j % (2 * key.length) = (j % (2 * key.length) - key.length) + key.length := by
          omega
        rw [h2, Nat.add_mod_right, Nat.mod_eq_of_lt (by omega)]
        omega
      rw [this]

/-- A second family: a buffer of two bytes uses only the first byte of the key,
so the tenant ids `"ab"` and `"ac"` decode each other's two-byte buffers. -/
theorem shared_prefix_keys_decode :
    (ObfuscateBytes [1, 2] [97, 98] 3).bind (fun o => DeobfuscateBytes o [97, 99] 3) =
      some [1, 2] := by
  decide

/-- C19 (the failing family of inputs): for every non-empty tenant id `A`, the
tenant id `A ++ A` is a different non-empty tenant id, and every buffer
obfuscated under `A` is recovered by `DeobfuscateBytes` under `A ++ A`, at
every round count: for an even-length buffer the result is the buffer
itself. -/
theorem doubled_tenant_id_decodes (A b : List Nat) (rounds : Int) (hA : A ≠ [])
    (hb : b ≠ []) :
    A ++ A ≠ A ∧ A ++ A ≠ [] ∧
    (ObfuscateBytes b A rounds).bind (fun o => DeobfuscateBytes o (A ++ A) rounds) =
      some (if b.length % 2 = 0 then b else b ++ [0]) := by
  refine ⟨?_, by simpa using hA, ?_⟩
  · intro h
    have := congrArg List.length h
    simp only [List.length_append] at this
    have hpos : 0 < A.length := List.length_pos.mpr hA
    omega
  · exact deobfuscate_with_other_key A (A ++ A) b rounds hb hA (by simpa using hA)
      (fun j _ => (getD_append_self_mod A j).symm)

/-- C19 at the tenant ids `"a"` and `"aa"`, the buffer `01 02` and three
rounds. -/
theorem doubled_tenant_id_decodes_witness :
    [97] ++ [97] ≠ [97] ∧ [97] ++ [97] ≠ [] ∧
    (ObfuscateBytes [1, 2] [97] 3).bind (fun o => DeobfuscateBytes o ([97] ++ [97]) 3) =
      some (if [1, 2].length % 2 = 0 then [1, 2] else [1, 2] ++ [0]) :=
  doubled_tenant_id_decodes [97] [1, 2] 3 (by decide) (by decide)

/-! ## Short codes with one bit flipped -/

theorem flipBit_length (s : List Nat) (i k : Nat) : (flipBit s i k).length = s.length := by
  simp [flipBit]

theorem flipBit_ne (s : List Nat) (i k : Nat) (hi : i < s.length) : flipBit s i k ≠ s := by
  intro h
  have h1 : (flipBit s i k)[i]? = s[i]? := by rw [h]
  simp only [flipBit, List.getElem?_set_self hi, List.getD_eq_getElem?_getD,
    List.getElem?_eq_getElem hi, Option.getD_some, Option.some.injEq] at h1
  have h2 : s[i] ^^^ (s[i] ^^^ 2 ^ k) = s[i] ^^^ s[i] := by rw [h1]
  rw [Nat.xor_cancel_left, Nat.xor_self] at h2
  exact absurd h2 (by positivity)

set_option maxRecDepth 100000 in
theorem digitChar_base62Index : ∀ c < 123, c ∈ base62Alphabet →
    digitChar (base62Index c) = c := by
  decide

theorem map_digitChar_index (l : List Nat) (h : ∀ c ∈ l, c ∈ base62Alphabet) :
    (l.map base62Index).map digitChar = l := by
  induction l with
  | nil => rfl
  | cons a t ih =>
    have ha := h a (List.mem_cons_self _ _)
    simp only [List.map_cons, List.cons.injEq]
    exact ⟨digitChar_base62Index a (base62Alphabet_lt a ha) ha,
      ih (fun x hx => h x (List.mem_cons_of_mem _ hx))⟩

theorem ofDigits62_inj (L1 : List Nat) :
    ∀ L2 : List Nat, L1.length = L2.length → (∀ d ∈ L1, d < 62) → (∀ d ∈ L2, d < 62) →
      Nat.ofDigits 62 L1 = Nat.ofDigits 62 L2 → L1 = L2 := by
  induction L1 with
  | nil =>
    intro L2 hlen _ _ _
    exact (List.length_eq_zero.mp hlen.symm).symm
  | cons a t ih =>
    intro L2 hlen h1 h2 hv
    cases L2 with
    | nil => simp at hlen
    | cons b u =>
      have ha := h1 a (List.mem_cons_self _ _)
      have hb := h2 b (List.mem_cons_self _ _)
      rw [Nat.ofDigits_cons, Nat.ofDigits_cons] at hv
      have hab : a = b := by omega
      have htu : Nat.ofDigits 62 t = Nat.ofDigits 62 u := by omega
      rw [hab, ih u (by simpa using hlen) (fun x hx => h1 x (List.mem_cons_of_mem _ hx))
        (fun x hx => h2 x (List.mem_cons_of_mem _ hx)) htu]

/-- Two strings over the alphabet with the same length and the same base-62
value are the same string. -/
theorem base62Value_inj (s1 s2 : List Nat) (h1 : ∀ c ∈ s1, c ∈ base62Alphabet)
    (h2 : ∀ c ∈ s2, c ∈ base62Alphabet) (hlen : s1.length = s2.length)
    (hv : base62Value s1 = base62Value s2) : s1 = s2 := by
  have hr1 : ∀ c ∈ s1.reverse, c ∈ base62Alphabet := fun c hc => h1 c (List.mem_reverse.mp hc)
  have hr2 : ∀ c ∈ s2.reverse, c ∈ base62Alphabet := fun c hc => h2 c (List.mem_reverse.mp hc)
  have hmap := ofDigits62_inj (s1.reverse.map base62Index) (s2.reverse.map base62Index)
    (by simp [hlen])
    (fun d hd => by
      obtain ⟨c, hc, rfl⟩ := List.mem_map.mp hd
      exact base62Index_lt c (hr1 c hc))
    (fun d hd => by
      obtain ⟨c, hc, rfl⟩ := List.mem_map.mp hd
      exact base62Index_lt c (hr2 c hc)) hv
  have := congrArg (List.map digitChar) hmap
  rw [map_digitChar_index _ hr1, map_digitChar_index _ hr2] at this
  exact List.reverse_injective this

theorem bigEndianBytes_inj (n m : Nat) (h : bigEndianBytes n = bigEndianBytes m) : n = m := by
  unfold bigEndianBytes at h
  exact Nat.digits_inj_iff.mp (List.reverse_injective h)

theorem bigEndianBytes_dropWhile (n : Nat) :
    (bigEndianBytes n).dropWhile (fun x => x = 0) = bigEndianBytes n := by
  unfold bigEndianBytes
  by_cases hn : n = 0
  · subst hn; simp
  · have hne : Nat.digits 256 n ≠ [] := Nat.digits_ne_nil_iff_ne_zero.mpr hn
    have hlast := Nat.getLast_digit_ne_zero 256 hn
    obtain ⟨l, a, hla⟩ : ∃ l a, Nat.digits 256 n = l ++ [a] :=
      ⟨_, _, (List.dropLast_append_getLast hne).symm⟩
    have ha : a ≠ 0 := by
      have : (Nat.digits 256 n).getLast hne = a := by simp [hla]
      rw [← this]; exact hlast
    rw [hla, List.reverse_append, List.reverse_singleton, List.singleton_append,
      List.dropWhile_cons]
    simp [ha]

theorem Base62Encode_alphabet (b : List Nat) : ∀ c ∈ Base62Encode b, c ∈ base62Alphabet := by
  by_cases h0 : bigIntSetBytes b = 0
  · intro c hc
    simp only [Base62Encode, h0, if_true, List.mem_singleton] at hc
    subst hc; decide
  · have hnz : ∃ x ∈ b, x ≠ 0 := by
      by_contra hcon
      push_neg at hcon
      exact h0 (bigIntSetBytes_zeros b hcon)
    exact (Base62Encode_nonzero b hnz).1

/-- A string over the alphabet that is not the encoding of `payload`, but has
the length of that encoding, does not decode to `payload`. -/
theorem Base62Decode_ne_payload (payload code' : List Nat) (hp : IsBytes payload)
    (h' : ∀ c ∈ code', c ∈ base62Alphabet)
    (hlen : code'.length = (Base62Encode payload).length)
    (hne : code' ≠ Base62Encode payload) :
    Base62Decode code' ≠ Except.ok payload := by
  intro hdec
  have hdec' := hdec
  rw [Base62Decode_eq, if_pos h'] at hdec'
  have hpay : bigEndianBytes (base62Value code') = payload := by
    simpa using hdec'
  have hdrop : payload.dropWhile (fun x => x = 0) = payload := by
    rw [← hpay]; exact bigEndianBytes_dropWhile _
  have hrt := base62_roundtrip_dropWhile payload hp
  rw [hdrop, Base62Decode_eq, if_pos (Base62Encode_alphabet payload)] at hrt
  have hval : bigEndianBytes (base62Value (Base62Encode payload)) =
      bigEndianBytes (base62Value code') := by
    rw [hpay]; simpa using hrt
  exact hne (base62Value_inj _ _ h' (Base62Encode_alphabet payload) hlen
    (bigEndianBytes_inj _ _ hval).symm)

/-- What `Resolve` does with a short code issued by `Create` after one bit of
it has been flipped: it returns an error, unless the flipped code decodes to a
payload whose message part differs from the issued one and whose last 32
bytes are the HMAC tag of that different message. -/
theorem Resolve_flipped_code (P : CryptoPrimitives) (hP : P.Correct) (c : CryptoConfig)
    (hkey : c.AESSecret.length = 32) (s nonce code : List Nat) (hs : IsBytes s)
    (hn : IsBytes nonce) (hcode : SecureURLService.Create P c s nonce = Except.ok code)
    (i k : Nat) (hi : i < code.length) :
    (∃ err, SecureURLService.Resolve P c (flipBit code i k) = Except.error err) ∨
    (∃ e' t', Base62Decode (flipBit code i k) = Except.ok (e' ++ t') ∧ t'.length = 32 ∧
      e' ≠ nonce ++ P.gcmSeal c.AESSecret nonce (P.zlibCompress s) ∧
      P.hmacSHA256 c.HMACSecret e' = t') := by
  rw [Create_eq P c hkey, Except.ok.injEq] at hcode
  have hbytes : IsBytes ((nonce ++ P.gcmSeal c.AESSecret nonce (P.zlibCompress s)) ++
      P.hmacSHA256 c.HMACSecret (nonce ++ P.gcmSeal c.AESSecret nonce (P.zlibCompress s))) :=
    (hn.append (hP.seal_bytes _ _ _ (hP.compress_bytes s hs))).append (hP.hmac_bytes _ _)
  obtain ⟨h1, h2, h3, _⟩ := Resolve_cases P c (flipBit code i k)
  by_cases hal : ∀ ch ∈ flipBit code i k, ch ∈ base62Alphabet
  · have hdec : Base62Decode (flipBit code i k) =
        Except.ok (bigEndianBytes (base62Value (flipBit code i k))) := by
      rw [Base62Decode_eq, if_pos hal]
    have hnp := Base62Decode_ne_payload _ (flipBit code i k) hbytes hal
      (by rw [flipBit_length, hcode]) (by rw [hcode]; exact flipBit_ne code i k hi)
    by_cases hlen : (bigEndianBytes (base62Value (flipBit code i k))).length < 32
    · exact Or.inl ⟨_, h2 _ hdec hlen⟩
    · by_cases hmac : P.hmacSHA256 c.HMACSecret
          ((bigEndianBytes (base62Value (flipBit code i k))).take
            ((bigEndianBytes (base62Value (flipBit code i k))).length - 32)) =
          (bigEndianBytes (base62Value (flipBit code i k))).drop
            ((bigEndianBytes (base62Value (flipBit code i k))).length - 32)
      · refine Or.inr ⟨_, _, by rw [List.take_append_drop]; exact hdec,
          by rw [List.length_drop]; omega, ?_, hmac⟩
        intro he
        apply hnp
        rw [hdec]
        congr 1
        rw [← he, hmac, List.take_append_drop]
      · exact Or.inl ⟨_, h3 _ hdec (by omega) hmac⟩
  · push_neg at hal
    exact Or.inl ⟨_, h1 hal⟩

/-- A tag function with 32-byte values cannot separate all messages: among the
byte strings of length 33 two different ones get the same tag. -/
theorem hmac_tags_collide (P : CryptoPrimitives) (hP : P.Correct) (key : List Nat) :
    ∃ m1 m2, IsBytes m1 ∧ IsBytes m2 ∧ m1 ≠ m2 ∧
      P.hmacSHA256 key m1 = P.hmacSHA256 key m2 := by
  let msg : (Fin 33 → Fin 256) → List Nat := fun v => List.ofFn fun j => (v j).val
  let f : (Fin 33 → Fin 256) → (Fin 32 → Fin 256) := fun v i =>
    ⟨(P.hmacSHA256 key (msg v)).getD i.val 0 % 256, Nat.mod_lt _ (by decide)⟩
  have hcard : Fintype.card (Fin 32 → Fin 256) < Fintype.card (Fin 33 → Fin 256) := by
    simp only [Fintype.card_fun, Fintype.card_fin]
    norm_num
  obtain ⟨v1, v2, hne, hf⟩ := Fintype.exists_ne_map_eq_of_card_lt f hcard
  have hmsg : ∀ v : Fin 33 → Fin 256, IsBytes (msg v) := by
    intro v x hx
    obtain ⟨j, rfl⟩ := (List.mem_ofFn _ _).mp hx
    exact (v j).isLt
  refine ⟨msg v1, msg v2, hmsg v1, hmsg v2, ?_, ?_⟩
  · intro h
    apply hne
    funext j
    have := congrFun (List.ofFn_injective h) j
    exact Fin.ext this
  · apply List.ext_getElem
    · rw [hP.hmac_length, hP.hmac_length]
    · intro i h1 h2
      have hi : i < 32 := by rw [hP.hmac_length] at h1; exact h1
      have := congrArg Fin.val (congrFun hf ⟨i, hi⟩)
      simp only [f, List.getD_eq_getElem?_getD, List.getElem?_eq_getElem h1,
        List.getElem?_eq_getElem h2, Option.getD_some] at this
      have b1 := hP.hmac_bytes key (msg v1) _ (List.getElem_mem h1)
      have b2 := hP.hmac_bytes key (msg v2) _ (List.getElem_mem h2)
      omega

/-! ## The fixed-block permutation against its reference -/

/-- C21 (evaluation at the input of the claim): `ObfuscateIDWithKey 12345 777 3`
is 4256640185441111413, and the reverse loop of `DecodeID` with key 777 and 3
rounds maps that value to 5650821440327582224, not to 12345. -/
theorem decode_of_12345_is_not_12345 :
    ObfuscateIDWithKey 12345 777 3 = 4256640185441111413 ∧
    decodeIDLoop 4256640185441111413 777 3 = 5650821440327582224 ∧
    decodeIDLoop (ObfuscateIDWithKey 12345 777 3) 777 3 ≠ 12345 := by
  refine ⟨by decide, by decide, by decide⟩

theorem rotate_eq (x : Nat) (hx : x < 2 ^ 32) :
    ((x <<< 7) % 2 ^ 32) ||| (x >>> (32 - 7)) = rotateLeft32 x 7 := by
  have h1 : (x <<< 7) % 2 ^ 32 = 2 ^ 7 * (x % 2 ^ 25) := by
    rw [Nat.shiftLeft_eq]; omega
  have h2 : x >>> (32 - 7) = x / 2 ^ 25 := by
    rw [Nat.shiftRight_eq_div_pow]
  have h3 : x / 2 ^ 25 < 2 ^ 7 := by omega
  rw [h1, h2, ← Nat.mul_add_lt_is_or h3]
  unfold rotateLeft32
  omega

/-- The second component of `feistelRound` is the reference mixing function
of the specification applied to the round key `(key + i) mod 2^32`. -/
theorem feistelRound_eq_reference (l r key i : Nat) :
    feistelRound l r ((key + i % 2 ^ 32) % 2 ^ 32) = (r, l ^^^ referenceMix r key i) := by
  have hsum : (r + (key + i % 2 ^ 32) % 2 ^ 32) % 2 ^ 32 = (r + key + i) % 2 ^ 32 := by omega
  simp only [feistelRound, referenceMix, hsum]
  rw [rotate_eq _ (Nat.mod_lt _ (by norm_num))]

theorem forwardRounds_eq_reference (key n : Nat) (p : Nat × Nat) :
    forwardRounds key n p = referenceRounds key n p := by
  induction n with
  | zero => simp [forwardRounds, referenceRounds]
  | succ n ih =>
    rw [forwardRounds_succ, ih, feistelRound_eq_reference]
    rfl

theorem referenceRounds_halves (key n : Nat) (p : Nat × Nat) (h : Halves32 p) :
    Halves32 (referenceRounds key n p) := by
  rw [← forwardRounds_eq_reference]
  exact forwardRounds_halves key n p h

/-- C22: for every 64-bit id, every key and every round count `rounds` (a
count below 1 runs no round),
`ObfuscateIDWithKey id key rounds` is the reference of the specification:
split into high and low 32 bits, for `i = 0, ..., rounds-1` replace
`(left, right)` by `(right, left XOR ((rotateLeft32 (right + key + i, 7) *
0x9e3779b9) mod 2^32))` with the additions modulo `2^32`, and return
`left * 2^32 + right`. -/
theorem ObfuscateIDWithKey_eq_reference (id key : Nat) (rounds : Int)
    (hid : id < 2 ^ 64) :
    ObfuscateIDWithKey id key rounds = obfuscateReference id key rounds.toNat := by
  rw [ObfuscateIDWithKey_eq, forwardRounds_eq_reference, splitHalves_eq id hid,
    joinHalves_eq _ (referenceRounds_halves _ _ _ ⟨by omega, by omega⟩)]
  rfl

/-- C22 at the id 12345, key 777 and three rounds. -/
theorem ObfuscateIDWithKey_eq_reference_witness :
    ObfuscateIDWithKey 12345 777 3 = obfuscateReference 12345 777 (3 : Int).toNat :=
  ObfuscateIDWithKey_eq_reference 12345 777 3 (by decide)

/-- The mixing of `feistelReverse`: `(right + key) * 0x9e3779b9` modulo `2^32`,
without the rotation. -/
theorem feistelReverse_eq (l r k : Nat) :
    feistelReverse l r k = (r, l ^^^ ((((r + k) % 2 ^ 32) * 0x9e3779b9) % 2 ^ 32)) := rfl

/-- C23 (evaluation at a failing input): on the half 1 with round key 0 the
forward round mixes to `rotateLeft32 (1, 7) * 0x9e3779b9 mod 2^32` =
465362048, the reverse round to `1 * 0x9e3779b9` = 2654435769: the reverse
pass does not rotate, so it does not use the mixing function of the forward
pass. -/
theorem feistelReverse_mixing_differs :
    (feistelRound 0 1 0).2 = referenceMix 1 0 0 ∧ referenceMix 1 0 0 = 465362048 ∧
    (feistelReverse 0 1 0).2 = 2654435769 ∧
    (feistelReverse 0 1 0).2 ≠ (feistelRound 0 1 0).2 := by
  refine ⟨by decide, by decide, by decide, by decide⟩

/-! ## The byte mode against its reference -/

theorem mixBytes_eq_referenceF (half key : List Nat) (i : Nat) :
    mixBytes half key i = referenceF half key i := by
  unfold mixBytes referenceF
  apply List.map_congr_left
  intro j _
  omega

theorem length_referenceF (half key : List Nat) (i : Nat) :
    (referenceF half key i).length = half.length := by
  simp [referenceF]

/-- The forward loop of `ObfuscateBytes` computes the rounds of the reference. -/
theorem obfuscate_loop_eq_reference (key : List Nat) (hk : key ≠ []) (n : Nat)
    (p : List Nat × List Nat) (hp : p.1.length = p.2.length) :
    (List.range n).foldlM (obfuscateRound key) p = some (referenceByteRounds key n p) ∧
    (referenceByteRounds key n p).1.length = p.1.length ∧
    (referenceByteRounds key n p).2.length = p.1.length := by
  induction n with
  | zero => exact ⟨rfl, rfl, hp.symm⟩
  | succ n ih =>
    obtain ⟨hq, h1, h2⟩ := ih
    have hlen : (referenceByteRounds key n p).1.length =
        (referenceF (referenceByteRounds key n p).2 key n).length := by
      rw [length_referenceF]; omega
    refine ⟨?_, ?_, ?_⟩
    · rw [List.range_succ, List.foldlM_append, hq]
      simp only [Option.bind_eq_bind, Option.some_bind, List.foldlM_cons, List.foldlM_nil,
        obfuscateRound, feistelRoundStateless_eq _ _ _ hk, xorInto_eq _ _ hlen,
        Option.pure_def, mixBytes_eq_referenceF]
      rfl
    · simp only [referenceByteRounds]; omega
    · simp only [referenceByteRounds, List.length_zipWith, length_referenceF]; omega

/-- Running the statements `l[j] ^= f j` for the pairwise distinct indices of
`order` updates exactly the positions listed in `order`. -/
theorem foldl_set_xor (f : Nat → Nat) (order : List Nat) (hnd : order.Nodup) (l : List Nat) :
    (order.foldl (fun l j => l.set j (l.getD j 0 ^^^ f j)) l).length = l.length ∧
    ∀ j, j < l.length →
      (order.foldl (fun l j => l.set j (l.getD j 0 ^^^ f j)) l).getD j 0 =
        if j ∈ order then l.getD j 0 ^^^ f j else l.getD j 0 := by
  induction order generalizing l with
  | nil => simp
  | cons a rest ih =>
    obtain ⟨hna, hrest⟩ := List.nodup_cons.mp hnd
    obtain ⟨hl, hget⟩ := ih hrest (l.set a (l.getD a 0 ^^^ f a))
    simp only [List.foldl_cons]
    refine ⟨by rw [hl, List.length_set], fun j hj => ?_⟩
    rw [hget j (by rw [List.length_set]; exact hj)]
    by_cases hja : j = a
    · subst hja
      simp [hna, List.getD_eq_getElem?_getD, List.getElem?_set, hj]
    · have hne : a ≠ j := fun h => hja h.symm
      by_cases hjr : j ∈ rest
      · simp [hjr, hja, hne, List.getD_eq_getElem?_getD, List.getElem?_set]
      · simp [hjr, hja, hne, List.getD_eq_getElem?_getD, List.getElem?_set]

/-- The combine step gives the same bytes in every order that runs each
goroutine once. -/
theorem xorIntoInOrder_eq (order left fOut : List Nat)
    (hperm : order.Perm (List.range left.length)) :
    xorIntoInOrder order left fOut = xorInto left fOut := by
  unfold xorIntoInOrder xorInto
  split
  · rfl
  · congr 1
    have hnd : order.Nodup := hperm.nodup_iff.mpr (List.nodup_range _)
    obtain ⟨hl, hget⟩ := foldl_set_xor (fun j => fOut.getD (j % fOut.length) 0) order hnd left
    apply List.ext_getElem
    · rw [hl]; simp
    · intro j h1 h2
      have hj : j < left.length := by rw [← hl]; exact h1
      have hmem : j ∈ order := hperm.mem_iff.mpr (List.mem_range.mpr hj)
      have := hget j hj
      rw [if_pos hmem, List.getD_eq_getElem?_getD, List.getElem?_eq_getElem h1] at this
      simp only [Option.getD_some] at this
      rw [this]
      simp

theorem obfuscate_loop_in_order (key : List Nat) (hk : key ≠ []) (sched : Nat → List Nat)
    (n : Nat) (p : List Nat × List Nat) (hp : p.1.length = p.2.length)
    (hs : ∀ i, (sched i).Perm (List.range p.1.length)) :
    (List.range n).foldlM (fun p i => obfuscateRoundInOrder key (sched i) p i) p =
      some (referenceByteRounds key n p) := by
  induction n with
  | zero => rfl
  | succ n ih =>
    obtain ⟨hq, h1, h2⟩ := obfuscate_loop_eq_reference key hk (n + 1) p hp
    obtain ⟨_, h1n, _⟩ := obfuscate_loop_eq_reference key hk n p hp
    rw [List.range_succ, List.foldlM_append] at hq ⊢
    rw [ih]
    rw [(obfuscate_loop_eq_reference key hk n p hp).1] at hq
    rw [← hq]
    simp only [Option.bind_eq_bind, Option.some_bind, List.foldlM_cons, List.foldlM_nil,
      obfuscateRoundInOrder, obfuscateRound]
    rw [feistelRoundStateless_eq _ _ _ hk]
    simp only [Option.some_bind]
    rw [xorIntoInOrder_eq _ _ _ (by rw [h1n]; exact hs n)]

theorem splitBytes_eq_reference (b : List Nat) :
    splitBytes b =
      ((if b.length % 2 = 1 then b ++ [0] else b).take
          ((if b.length % 2 = 1 then b ++ [0] else b).length / 2),
        (if b.length % 2 = 1 then b ++ [0] else b).drop
          ((if b.length % 2 = 1 then b ++ [0] else b).length / 2)) := by
  by_cases h : b.length % 2 = 1
  · have h2 : b.length % 2 ≠ 0 := by omega
    simp [splitBytes, h]
  · have h2 : b.length % 2 = 0 := by omega
    simp [splitBytes, h2]

theorem length_splitBytes_fst (b : List Nat) : (splitBytes b).1.length = (b.length + 1) / 2 := by
  rw [splitBytes_eq_reference]
  by_cases h : b.length % 2 = 1
  · simp only [h, if_true, List.length_take, List.length_append, List.length_singleton]; omega
  · simp only [h, if_false, List.length_take]; omega

/-- C24: for a non-empty buffer, a non-empty key and every round count,
`ObfuscateBytes` returns the reference of the specification (one zero byte
appended to an odd length, halves `(L, R)`, for `i = 0, ..., rounds-1` the
step `(L, R) := (R, L XOR F_i(R))` with `F_i(R)[j] = (R[j] + key[j mod
len(key)] + i) mod 256`, then `L` followed by `R`), and so does the run in
which the per-byte XORs of each round `i` are carried out one after the other
in any order `sched i` that lists every index of the half once. -/
theorem ObfuscateBytes_eq_reference (b key : List Nat) (rounds : Int)
    (hb : b ≠ []) (hk : key ≠ []) :
    ObfuscateBytes b key rounds = some (obfuscateBytesReference b key rounds.toNat) ∧
    ∀ sched : Nat → List Nat,
      (∀ i, (sched i).Perm (List.range ((b.length + 1) / 2))) →
      ObfuscateBytesInOrder sched b key rounds =
        some (obfuscateBytesReference b key rounds.toNat) := by
  have hb0 : b.length ≠ 0 := by simpa using hb
  obtain ⟨hlen, _, _⟩ := splitBytes_spec b
  refine ⟨?_, fun sched hs => ?_⟩
  · simp only [ObfuscateBytes, hb0, if_false,
      (obfuscate_loop_eq_reference key hk rounds.toNat (splitBytes b) hlen).1,
      Option.bind_eq_bind, Option.some_bind, Option.pure_def]
    rw [splitBytes_eq_reference]
    rfl
  · simp only [ObfuscateBytesInOrder, hb0, if_false]
    rw [obfuscate_loop_in_order key hk sched rounds.toNat (splitBytes b) hlen
      (by rw [length_splitBytes_fst]; exact hs)]
    simp only [Option.bind_eq_bind, Option.some_bind, Option.pure_def]
    rw [splitBytes_eq_reference]
    rfl

/-- C24 at the buffer `[1, 2, 3]`, key `"ab"`, three rounds, and the schedule
that runs the two goroutines of every round in the order 1, 0. -/
theorem ObfuscateBytes_eq_reference_witness :
    ObfuscateBytes [1, 2, 3] [97, 98] 3 =
      some (obfuscateBytesReference [1, 2, 3] [97, 98] (3 : Int).toNat) ∧
    ObfuscateBytesInOrder (fun _ => [1, 0]) [1, 2, 3] [97, 98] 3 =
      some (obfuscateBytesReference [1, 2, 3] [97, 98] (3 : Int).toNat) :=
  ⟨(ObfuscateBytes_eq_reference [1, 2, 3] [97, 98] 3 (by decide) (by decide)).1,
    (ObfuscateBytes_eq_reference [1, 2, 3] [97, 98] 3 (by decide) (by decide)).2
      (fun _ => [1, 0])
      (fun _ => (by decide : [1, 0].Perm (List.range (([1, 2, 3].length + 1) / 2))))⟩

/-- C25: for an odd-length buffer `b`, a non-empty key and every round count,
`b` and `b` followed by one zero byte are different payloads with the same
code under `ObfuscateBytes`, and `DeobfuscateBytes` returns `b` followed by
the zero byte on that code. -/
theorem ObfuscateBytes_padding_lossy (b key : List Nat) (rounds : Int)
    (hodd : b.length % 2 = 1) (hk : key ≠ []) :
    b ≠ b ++ [0] ∧
    ObfuscateBytes b key rounds = ObfuscateBytes (b ++ [0]) key rounds ∧
    ∃ code, ObfuscateBytes b key rounds = some code ∧
      DeobfuscateBytes code key rounds = some (b ++ [0]) := by
  have hb : b ≠ [] := by
    intro h; subst h; simp at hodd
  have hb0 : b.length ≠ 0 := by omega
  have hsplit : splitBytes (b ++ [0]) = splitBytes b := by
    rw [splitBytes_eq, splitBytes_eq]
    have h1 : padEven b = b ++ [0] := by
      have : ¬ b.length % 2 = 0 := by omega
      simp [padEven, this]
    have h2 : padEven (b ++ [0]) = b ++ [0] := by
      have : (b ++ [0]).length % 2 = 0 := by
        simp only [List.length_append, List.length_singleton]; omega
      simp only [padEven, this, if_true]
    rw [h1, h2]
  refine ⟨?_, ?_, ?_⟩
  · intro h
    have := congrArg List.length h
    simp at this
  · have h1 : (b ++ [0]).length ≠ 0 := by simp
    simp only [ObfuscateBytes, hb0, h1, if_false, hsplit]
  · obtain ⟨q, hq, _, _, hback, _⟩ := ObfuscateBytes_spec b key rounds hb hk
    refine ⟨q.1 ++ q.2, hq, ?_⟩
    rw [hback]
    have : ¬ b.length % 2 = 0 := by omega
    simp [padEven, this]

/-- C25 at the buffer `[1, 2, 3]`, key `"ab"`, three rounds. -/
theorem ObfuscateBytes_padding_lossy_witness :
    [1, 2, 3] ≠ [1, 2, 3] ++ [0] ∧
    ObfuscateBytes [1, 2, 3] [97, 98] 3 = ObfuscateBytes ([1, 2, 3] ++ [0]) [97, 98] 3 ∧
    ∃ code, ObfuscateBytes [1, 2, 3] [97, 98] 3 = some code ∧
      DeobfuscateBytes code [97, 98] 3 = some ([1, 2, 3] ++ [0]) :=
  ObfuscateBytes_padding_lossy [1, 2, 3] [97, 98] 3 (by decide) (by decide)

/-! ## The Base62 encoder of 64-bit numbers -/

theorem encodeBase62Loop_eq (fuel num : Nat) (buf : List Nat) (h : num ≤ fuel) :
    encodeBase62Loop fuel num buf = buf ++ (Nat.digits 62 num).map digitChar := by
  induction fuel generalizing num buf with
  | zero =>
    have : num = 0 := by omega
    subst this; simp [encodeBase62Loop]
  | succ fuel ih =>
    by_cases hn : num = 0
    · subst hn; simp [encodeBase62Loop]
    · have hpos : 0 < num := Nat.pos_of_ne_zero hn
      have hdiv : num / 62 ≤ fuel := by
        have := Nat.div_lt_self hpos (by decide : 1 < 62)
        omega
      rw [encodeBase62Loop, if_pos hpos, ih _ _ hdiv, Nat.digits_def' (by decide) hpos]
      simp [digitChar]

/-- `EncodeBase62` of a positive number is its base-62 digit string, most
significant digit first. -/
theorem EncodeBase62_eq (n : Nat) (hn : n ≠ 0) :
    EncodeBase62 n = (Nat.digits 62 n).reverse.map digitChar := by
  simp [EncodeBase62, hn, encodeBase62Loop_eq n n [] (le_refl n)]

/-- A positive number below `2^64` has between 1 and 11 base-62 digits. -/
theorem digits62_length (n : Nat) (hn : n ≠ 0) (h : n < 2 ^ 64) :
    1 ≤ (Nat.digits 62 n).length ∧ (Nat.digits 62 n).length ≤ 11 := by
  constructor
  · exact List.length_pos.mpr (Nat.digits_ne_nil_iff_ne_zero.mpr hn)
  · by_contra hcon
    have h12 : 12 ≤ (Nat.digits 62 n).length := by omega
    have h1 : 62 ^ 12 ≤ 62 ^ (Nat.digits 62 n).length :=
      Nat.pow_le_pow_right (by decide) h12
    have h2 := Nat.base_pow_length_digits_le 62 n (by decide) hn
    have h3 : (62 : Nat) ^ 12 = 3226266762397899821056 := by norm_num
    have h4 : (2 : Nat) ^ 64 = 18446744073709551616 := by norm_num
    omega

/-- C26: for every value `n` below `2^64`, `EncodeBase62 n` has between 1 and
11 characters, the digit loop leaves at most 11 bytes in the buffer, and every
character is one of `0-9`, `a-z`, `A-Z`. -/
theorem EncodeBase62_length_alphabet (n : Nat) (h : n < 2 ^ 64) :
    1 ≤ (EncodeBase62 n).length ∧ (EncodeBase62 n).length ≤ 11 ∧
    (encodeBase62Loop n n []).length ≤ 11 ∧
    ∀ c ∈ EncodeBase62 n, c ∈ base62Alphabet := by
  by_cases hn : n = 0
  · subst hn
    decide
  · obtain ⟨h1, h2⟩ := digits62_length n hn h
    rw [EncodeBase62_eq n hn, encodeBase62Loop_eq n n [] (le_refl n)]
    simp only [List.length_map, List.length_reverse, List.nil_append]
    refine ⟨h1, h2, h2, fun c hc => ?_⟩
    obtain ⟨d, hd, rfl⟩ := List.mem_map.mp hc
    exact (base62Index_digitChar d
      (Nat.digits_lt_base (by decide) (List.mem_reverse.mp hd))).2

/-- C26 at the largest 64-bit value, whose code has 11 characters. -/
theorem EncodeBase62_length_alphabet_witness :
    1 ≤ (EncodeBase62 (2 ^ 64 - 1)).length ∧ (EncodeBase62 (2 ^ 64 - 1)).length ≤ 11 ∧
    (encodeBase62Loop (2 ^ 64 - 1) (2 ^ 64 - 1) []).length ≤ 11 ∧
    ∀ c ∈ EncodeBase62 (2 ^ 64 - 1), c ∈ base62Alphabet :=
  EncodeBase62_length_alphabet (2 ^ 64 - 1) (by decide)

/-! ## The sequence field in the identifier -/

set_option maxRecDepth 1000000 in
/-- C27 (evaluation at a failing input): on the generator with node id 4, 258
sequential readings of the same millisecond 3 end with the identifier 787713,
issued right after the sequence-exhaustion wait of the 257th reading. Its low
bits hold the sequence value 257, above 255, and `(id >> 8) & 1023` is 5, not
the node id 4. -/
theorem NextID_sequence_spills_into_node_bits :
    NewIDGenerator 4 = some ⟨0, 0, 4⟩ ∧
    (nextIDIter ⟨3, 255, 4⟩ 3) = (⟨3, 256, 4⟩, none) ∧
    (NextIDs ⟨0, 0, 4⟩ (List.replicate 258 3)).getLast? = some 787713 ∧
    787713 = composeID 3 4 257 ∧
    (787713 >>> 8) &&& 1023 = 5 := by
  refine ⟨by decide, by decide, by decide, by decide, by decide⟩

/-! ## The two Base62 encoders -/

theorem toUint64_toInt64 (n : Nat) (h : n < 2 ^ 64) : toUint64 (toInt64 n) = n := by
  unfold toUint64 toInt64 wrapInt64
  omega

theorem bigIntSetBytes_Int64ToBytes (n : Nat) (h : n < 2 ^ 64) :
    bigIntSetBytes (Int64ToBytes (toInt64 n)) = n := by
  simp only [Int64ToBytes, toUint64_toInt64 n h, bigIntSetBytes, List.foldl_cons,
    List.foldl_nil, Nat.shiftRight_eq_div_pow]
  omega

/-- C28: for every value `n` below `2^64`, `EncodeBase62 n` is `Base62Encode`
of the eight big-endian bytes that `Int64ToBytes` writes for `n` read as an
`int64`. -/
theorem EncodeBase62_eq_Base62Encode (n : Nat) (h : n < 2 ^ 64) :
    EncodeBase62 n = Base62Encode (Int64ToBytes (toInt64 n)) := by
  by_cases hn : n = 0
  · subst hn
    decide
  · have hb : bigIntSetBytes (Int64ToBytes (toInt64 n)) ≠ 0 := by
      rw [bigIntSetBytes_Int64ToBytes n h]; exact hn
    rw [EncodeBase62_eq n hn, Base62Encode_eq _ hb, bigIntSetBytes_Int64ToBytes n h]

/-- C28 at `2^63 + 12345`, a value that is negative as an `int64`. -/
theorem EncodeBase62_eq_Base62Encode_witness :
    EncodeBase62 (2 ^ 63 + 12345) = Base62Encode (Int64ToBytes (toInt64 (2 ^ 63 + 12345))) :=
  EncodeBase62_eq_Base62Encode (2 ^ 63 + 12345) (by decide)

/-! ## Decoding what `EncodeBase62` produced -/

theorem wrapInt64_emod (x : Int) : wrapInt64 x % 2 ^ 64 = x % 2 ^ 64 := by
  unfold wrapInt64
  omega

/-- The accumulation of `decodeBase62` on the characters of digits below 62
succeeds, and its result agrees modulo `2^64` with the accumulation without
wrap-around. -/
theorem decodeBase62_fold_digitChars (ds : List Nat) (hds : ∀ d ∈ ds, d < 62) (acc : Int)
    (a : Nat) (hacc : acc % 2 ^ 64 = (a : Int) % 2 ^ 64)
    (hrange : -2 ^ 63 ≤ acc ∧ acc < 2 ^ 63) :
    ∃ r : Int, (ds.map digitChar).foldlM (fun (num : Int) c =>
        match base62Val c with
        | some val => Except.ok (wrapInt64 (num * 62 + (val : Int)))
        | none => (Except.error "invalid base62 character" : Except String Int)) acc =
      Except.ok r ∧
      r % 2 ^ 64 = ((ds.foldl (fun num d => num * 62 + d) a : Nat) : Int) % 2 ^ 64 ∧
      -2 ^ 63 ≤ r ∧ r < 2 ^ 63 := by
  induction ds generalizing acc a with
  | nil => exact ⟨acc, rfl, hacc, hrange⟩
  | cons d ds ih =>
    have hd : d < 62 := hds d (List.mem_cons_self _ _)
    simp only [List.map_cons, List.foldlM_cons, base62Val_digitChar d hd, List.foldl_cons]
    refine ih (fun x hx => hds x (List.mem_cons_of_mem _ hx)) _ _ ?_ ?_
    · rw [wrapInt64_emod]
      push_cast
      omega
    · unfold wrapInt64
      omega

/-- C29: for every value `n` below `2^64`, `decodeBase62 (EncodeBase62 n)`
succeeds, and its `int64` result read as an unsigned 64-bit value is `n` (for
`n ≥ 2^63` the accumulation wraps and the result is negative). -/
theorem decodeBase62_EncodeBase62 (n : Nat) (h : n < 2 ^ 64) :
    ∃ r : Int, decodeBase62 (EncodeBase62 n) = Except.ok r ∧ toUint64 r = n ∧
      -2 ^ 63 ≤ r ∧ r < 2 ^ 63 ∧ (2 ^ 63 ≤ n → r < 0) := by
  have key : ∃ r : Int, decodeBase62 (EncodeBase62 n) = Except.ok r ∧
      r % 2 ^ 64 = (n : Int) % 2 ^ 64 ∧ -2 ^ 63 ≤ r ∧ r < 2 ^ 63 := by
    by_cases hn : n = 0
    · subst hn
      exact ⟨0, by decide, by decide, by decide, by decide⟩
    · have hds : ∀ d ∈ (Nat.digits 62 n).reverse, d < 62 := fun d hd =>
        Nat.digits_lt_base (by decide) (List.mem_reverse.mp hd)
      obtain ⟨r, hr, hmod, hlo, hhi⟩ :=
        decodeBase62_fold_digitChars _ hds 0 0 rfl (by decide)
      rw [foldl_reverse_eq_ofDigits, Nat.ofDigits_digits] at hmod
      refine ⟨r, ?_, hmod, hlo, hhi⟩
      rw [EncodeBase62_eq n hn]
      exact hr
  obtain ⟨r, hr, hmod, hlo, hhi⟩ := key
  refine ⟨r, hr, ?_, hlo, hhi, ?_⟩
  · unfold toUint64
    rw [hmod]
    omega
  · intro hbig
    omega

/-- C29 at `2^64 - 1`, where the result is the `int64` value `-1`. -/
theorem decodeBase62_EncodeBase62_witness :
    ∃ r : Int, decodeBase62 (EncodeBase62 (2 ^ 64 - 1)) = Except.ok r ∧
      toUint64 r = 2 ^ 64 - 1 ∧ -2 ^ 63 ≤ r ∧ r < 2 ^ 63 ∧
      ((2 : Nat) ^ 63 ≤ 2 ^ 64 - 1 → r < 0) :=
  decodeBase62_EncodeBase62 (2 ^ 64 - 1) (by decide)

/-! ## Encoding what `Base62Decode` produced -/

theorem bigIntSetBytes_bigEndianBytes (v : Nat) : bigIntSetBytes (bigEndianBytes v) = v := by
  rw [bigIntSetBytes_eq, bigEndianBytes, List.reverse_reverse, Nat.ofDigits_digits]

theorem base62Value_zero_cons (t : List Nat) : base62Value ('0'.toNat :: t) = base62Value t := by
  have h0 : base62Index '0'.toNat = 0 := by decide
  simp only [base62Value, List.reverse_cons, List.map_append, List.map_cons, List.map_nil,
    Nat.ofDigits_append, Nat.ofDigits_singleton, h0]
  omega

theorem base62Value_dropWhile (s : List Nat) :
    base62Value (s.dropWhile (fun c => c = '0'.toNat)) = base62Value s := by
  induction s with
  | nil => rfl
  | cons a t ih =>
    by_cases ha : a = '0'.toNat
    · subst ha
      rw [base62Value_zero_cons, ← ih]
      simp [List.dropWhile_cons]
    · have ha2 : ¬ a = 48 := by simpa using ha
      simp [List.dropWhile_cons, ha2]

theorem base62Index_eq_zero (c : Nat) (hc : c ∈ base62Alphabet) (h : base62Index c = 0) :
    c = '0'.toNat := by
  have := digitChar_base62Index c (base62Alphabet_lt c hc) hc
  rw [h] at this
  rw [← this]
  decide

/-- The digit string of the value of a string over the alphabet that does not
start with `'0'` is that string. -/
theorem digits_base62Value (s : List Nat) (hs : ∀ c ∈ s, c ∈ base62Alphabet)
    (hhead : s.head? ≠ some '0'.toNat) :
    (Nat.digits 62 (base62Value s)).reverse.map digitChar = s := by
  have hdig : Nat.digits 62 (base62Value s) = s.reverse.map base62Index := by
    unfold base62Value
    refine Nat.digits_ofDigits 62 (by decide) _ (fun d hd => ?_) (fun hne => ?_)
    · obtain ⟨c, hc, rfl⟩ := List.mem_map.mp hd
      exact base62Index_lt c (hs c (List.mem_reverse.mp hc))
    · cases s with
      | nil => simp at hne
      | cons a t =>
        have ha : a ≠ '0'.toNat := by simpa using hhead
        have hlast : (List.map base62Index (a :: t).reverse).getLast hne = base62Index a := by
          simp [List.getLast_append]
        rw [hlast]
        exact fun h0 => ha (base62Index_eq_zero a (hs a (List.mem_cons_self _ _)) h0)
  rw [hdig, ← List.map_reverse, List.reverse_reverse, map_digitChar_index s hs]

/-- Encoding the bytes decoded from a string over the alphabet gives the
string without its leading `'0'` characters, or `"0"` when nothing remains. -/
theorem Base62Encode_Base62Decode_aux (s : List Nat) (hs : ∀ c ∈ s, c ∈ base62Alphabet) :
    (Base62Decode s).map Base62Encode = Except.ok
      (if s.dropWhile (fun c => c = '0'.toNat) = [] then ['0'.toNat]
        else s.dropWhile (fun c => c = '0'.toNat)) := by
  rw [Base62Decode_eq, if_pos hs]
  simp only [Except.map]
  congr 1
  have hs' : ∀ c ∈ s.dropWhile (fun c => c = '0'.toNat), c ∈ base62Alphabet :=
    fun c hc => hs c ((List.dropWhile_sublist _).subset hc)
  have hhead : (s.dropWhile (fun c => c = '0'.toNat)).head? ≠ some '0'.toNat := by
    intro h
    have := List.head?_dropWhile_not (fun c => decide (c = '0'.toNat)) s
    rw [h] at this
    simp at this
  have hdig := digits_base62Value _ hs' hhead
  rw [base62Value_dropWhile] at hdig
  by_cases hv : base62Value s = 0
  · have hnil : s.dropWhile (fun c => c = '0'.toNat) = [] := by
      rw [← hdig, hv]; simp
    rw [if_pos hnil]
    simp [Base62Encode, bigIntSetBytes_bigEndianBytes, hv]
  · have hne : s.dropWhile (fun c => c = '0'.toNat) ≠ [] := by
      intro hnil
      rw [hnil] at hdig
      simp only [List.map_eq_nil_iff, List.reverse_eq_nil_iff] at hdig
      exact hv (Nat.digits_eq_nil_iff_eq_zero.mp hdig)
    rw [if_neg hne, Base62Encode_eq _ (by rw [bigIntSetBytes_bigEndianBytes]; exact hv),
      bigIntSetBytes_bigEndianBytes, hdig]

/-- C30: for a string `s` over the Base62 alphabet, `Base62Encode` of the
bytes that `Base62Decode s` returns is `s` without its leading `'0'`
characters, or `"0"` when nothing remains; it is `s` itself when `s` is `"0"`
or is non-empty with a first character other than `'0'`. -/
theorem Base62Encode_Base62Decode (s : List Nat) (hs : ∀ c ∈ s, c ∈ base62Alphabet) :
    (Base62Decode s).map Base62Encode = Except.ok
      (if s.dropWhile (fun c => c = '0'.toNat) = [] then ['0'.toNat]
        else s.dropWhile (fun c => c = '0'.toNat)) ∧
    ((s = ['0'.toNat] ∨ (s ≠ [] ∧ s.head? ≠ some '0'.toNat)) →
      (Base62Decode s).map Base62Encode = Except.ok s) := by
  refine ⟨Base62Encode_Base62Decode_aux s hs, fun h => ?_⟩
  rw [Base62Encode_Base62Decode_aux s hs]
  rcases h with h | ⟨hne, hhead⟩
  · subst h; decide
  · cases s with
    | nil => exact absurd rfl hne
    | cons a t =>
      have ha : ¬ a = 48 := by simpa using hhead
      simp [List.dropWhile_cons, ha]

/-- C30 at the strings `"00aZ"` (leading zeros removed) and `"aZ0"` (returned
as it is). -/
theorem Base62Encode_Base62Decode_witness :
    ((Base62Decode [48, 48, 97, 90]).map Base62Encode = Except.ok
      (if [48, 48, 97, 90].dropWhile (fun c => c = '0'.toNat) = [] then ['0'.toNat]
        else [48, 48, 97, 90].dropWhile (fun c => c = '0'.toNat)) ∧
    (([48, 48, 97, 90] = ['0'.toNat] ∨
        ([48, 48, 97, 90] ≠ [] ∧ [48, 48, 97, 90].head? ≠ some '0'.toNat)) →
      (Base62Decode [48, 48, 97, 90]).map Base62Encode = Except.ok [48, 48, 97, 90])) ∧
    (Base62Decode [97, 90, 48]).map Base62Encode = Except.ok [97, 90, 48] :=
  ⟨Base62Encode_Base62Decode [48, 48, 97, 90] (by decide),
    (Base62Encode_Base62Decode [97, 90, 48] (by decide)).2 (Or.inr (by decide))⟩

end TinyURL
